import Mathlib

/-!
# VectorSorting.cpp : sorting a vector of bids by title

A shallow embedding of `src/VectorSorting.cpp`.

* `std::vector<Bid>` is a `List (Bid double)`; the type `double` of the amount is
  a parameter, since the sorting code never inspects it.
* `std::string` is `String` and `char` is `Char`; `<` on `String` is the
  lexicographic order on the characters, the order `std::string::operator<`
  computes on encoded text.
* `atof` is a parameter of `strToDouble`: it is the C library's conversion. The
  definition `atof` is a model of it after the spec, with exact rational values.
* The CSV parser is not part of the source: `loadBids` takes the rows it produces.
* `int` indices are `Int`.  Every index the code computes lies between `-1` and
  the size of the vector, so index arithmetic is not reduced modulo `2^32`
  (vectors are taken to have fewer than `2^31` elements).
* `bids[i]` outside the vector is undefined behaviour in C++: it is `none` here,
  and every function that indexes the vector returns an `Option`.
-/

namespace VectorSorting

/-! ## The program

The definitions follow the source function by function. The lemmas placed among
them are the ones a termination proof needs. The definition of `quickSort` comes
further down, after the contract of `partition`, which its recursion rests on. -/

/-- The structure `Bid` of the source: identifier, title, fund and amount. -/
structure Bid (double : Type) where
  bidId : String
  title : String
  fund : String
  amount : double

section Program

variable {α : Type} {double : Type}

/-- The access `bids[i]` with an `int` index: `none` outside the vector. -/
def read (bids : List α) (i : Int) : Option α :=
  if 0 ≤ i then bids[i.toNat]? else none

/-- The call `swap(bids[i], bids[j])`: exchanges the two whole elements. -/
def swap (bids : List α) (i j : Int) : Option (List α) :=
  match read bids i, read bids j with
  | some a, some b => some ((bids.set i.toNat b).set j.toNat a)
  | _, _ => none

theorem read_eq_some_iff {bids : List α} {i : Int} {a : α} :
    read bids i = some a ↔ 0 ≤ i ∧ ∃ h : i.toNat < bids.length, bids[i.toNat] = a := by
  unfold read
  split
  · rename_i h
    simp [List.getElem?_eq_some, h]
  · rename_i h
    simp [h]

theorem read_bounds {bids : List α} {i : Int} {a : α} (h : read bids i = some a) :
    0 ≤ i ∧ i < bids.length := by
  obtain ⟨h0, h1, -⟩ := read_eq_some_iff.mp h
  omega

/-- The first inner loop of `partition`: `while (bids[low].title < pivot) low++;`.
The result is the value of `low` when the loop is left. -/
def advanceLow (bids : List (Bid double)) (pivot : String) (low : Int) : Option Int :=
  match h : read bids low with
  | none => none
  | some b => if b.title < pivot then advanceLow bids pivot (low + 1) else some low
termination_by ((bids.length : Int) - low).toNat
decreasing_by
  have := read_bounds h
  omega

/-- The second inner loop of `partition`: `while (pivot < bids[high].title) high--;`.
The result is the value of `high` when the loop is left. -/
def retreatHigh (bids : List (Bid double)) (pivot : String) (high : Int) : Option Int :=
  match h : read bids high with
  | none => none
  | some b => if pivot < b.title then retreatHigh bids pivot (high - 1) else some high
termination_by (high + 1).toNat
decreasing_by
  have := read_bounds h
  omega

/-- What a finished low scan says: it moved right, it passed only titles below
the pivot, and it stopped on a title that is not below the pivot. -/
theorem advanceLow_sound {bids : List (Bid double)} {pivot : String} {low r : Int}
    (h : advanceLow bids pivot low = some r) :
    low ≤ r ∧ (∃ b, read bids r = some b ∧ ¬ b.title < pivot) ∧
      ∀ i, low ≤ i → i < r → ∀ b, read bids i = some b → b.title < pivot := by
  induction low using advanceLow.induct bids pivot with
  | case1 low hn =>
    rw [advanceLow] at h
    split at h
    · cases h
    · rename_i b hb
      rw [hn] at hb
      cases hb
  | case2 low b hb hlt ih =>
    rw [advanceLow] at h
    split at h
    · cases h
    · rename_i b1 hb1
      have e : b1 = b := Option.some.inj (hb1.symm.trans hb)
      subst e
      rw [if_pos hlt] at h
      obtain ⟨h1, h2, h3⟩ := ih h
      refine ⟨by omega, h2, ?_⟩
      intro i hi1 hi2 c hc
      by_cases hil : i = low
      · subst hil
        have e : c = b1 := Option.some.inj (hc.symm.trans hb)
        exact e ▸ hlt
      · exact h3 i (by omega) hi2 c hc
  | case3 low b hb hlt =>
    rw [advanceLow] at h
    split at h
    · cases h
    · rename_i b1 hb1
      have e : b1 = b := Option.some.inj (hb1.symm.trans hb)
      subst e
      rw [if_neg hlt] at h
      cases h
      exact ⟨le_refl _, ⟨b1, hb, hlt⟩, fun i h1 h2 => by omega⟩

/-- What a finished high scan says: it moved left, it passed only titles above
the pivot, and it stopped on a title that is not above the pivot. -/
theorem retreatHigh_sound {bids : List (Bid double)} {pivot : String} {high r : Int}
    (h : retreatHigh bids pivot high = some r) :
    r ≤ high ∧ (∃ b, read bids r = some b ∧ ¬ pivot < b.title) ∧
      ∀ i, r < i → i ≤ high → ∀ b, read bids i = some b → pivot < b.title := by
  induction high using retreatHigh.induct bids pivot with
  | case1 high hn =>
    rw [retreatHigh] at h
    split at h
    · cases h
    · rename_i b hb
      rw [hn] at hb
      cases hb
  | case2 high b hb hlt ih =>
    rw [retreatHigh] at h
    split at h
    · cases h
    · rename_i b1 hb1
      have e : b1 = b := Option.some.inj (hb1.symm.trans hb)
      subst e
      rw [if_pos hlt] at h
      obtain ⟨h1, h2, h3⟩ := ih h
      refine ⟨by omega, h2, ?_⟩
      intro i hi1 hi2 c hc
      by_cases hil : i = high
      · subst hil
        have e : c = b1 := Option.some.inj (hc.symm.trans hb)
        exact e ▸ hlt
      · exact h3 i hi1 (by omega) c hc
  | case3 high b hb hlt =>
    rw [retreatHigh] at h
    split at h
    · cases h
    · rename_i b1 hb1
      have e : b1 = b := Option.some.inj (hb1.symm.trans hb)
      subst e
      rw [if_neg hlt] at h
      cases h
      exact ⟨le_refl _, ⟨b1, hb, hlt⟩, fun i h1 h2 => by omega⟩

/-- The outer loop `while (true)` of `partition`, entered with the current
`low` and `high`: both scans, the test `low >= high` that returns `high`, the
swap and the two index updates. -/
def partitionLoop (bids : List (Bid double)) (pivot : String) (low high : Int) :
    Option (List (Bid double) × Int) :=
  match hl : advanceLow bids pivot low with
  | none => none
  | some low1 =>
    match hh : retreatHigh bids pivot high with
    | none => none
    | some high1 =>
      if low1 ≥ high1 then some (bids, high1)
      else
        match swap bids low1 high1 with
        | none => none
        | some bids1 => partitionLoop bids1 pivot (low1 + 1) (high1 - 1)
termination_by (high - low).toNat
decreasing_by
  have h1 := (advanceLow_sound hl).1
  have h2 := (retreatHigh_sound hh).1
  omega

/-- The function `partition` of the source. The pivot is the title at the middle
index, read once; the result is the partitioned vector and the returned `high`. -/
def partition (bids : List (Bid double)) (begin end_ : Int) :
    Option (List (Bid double) × Int) :=
  let low := begin
  let high := end_
  let middlePoint := low + (high - low).tdiv 2
  match read bids middlePoint with
  | none => none
  | some b => partitionLoop bids b.title low high

/-- The inner `for` loop of `selectionSort`, entered with the current `j` and
`min`: `for (j; j < size_t - 1; ++j) if (bids[j].title < bids[min].title) min = j;`.
The result is the final value of `min`. -/
def selectionSortInner (bids : List (Bid double)) (size_t : Int) (j min : Int) : Option Int :=
  if j < size_t - 1 then
    match read bids j, read bids min with
    | some bj, some bm =>
      if bj.title < bm.title then selectionSortInner bids size_t (j + 1) j
      else selectionSortInner bids size_t (j + 1) min
    | _, _ => none
  else some min
termination_by (size_t - 1 - j).toNat
decreasing_by
  all_goals omega

/-- The outer `for` loop of `selectionSort`, entered with the current `pos`;
`size_t` is the size read before the loop, and the inner loop reads the size
again (the inner declaration `int size_t = bids.size()` of the source). -/
def selectionSortOuter (bids : List (Bid double)) (size_t : Int) (pos : Int) :
    Option (List (Bid double)) :=
  if pos < size_t - 1 then
    match selectionSortInner bids (bids.length : Int) (pos + 1) pos with
    | none => none
    | some min =>
      if min ≠ pos then
        match swap bids pos min with
        | none => none
        | some bids1 => selectionSortOuter bids1 size_t (pos + 1)
      else selectionSortOuter bids size_t (pos + 1)
  else some bids
termination_by (size_t - 1 - pos).toNat
decreasing_by
  all_goals omega

/-- The function `selectionSort` of the source. -/
def selectionSort (bids : List (Bid double)) : Option (List (Bid double)) :=
  selectionSortOuter bids (bids.length : Int) 0

/-- The shifting loop of `std::remove(first, last, value)`: `i` reads, `result`
writes; an element different from `value` is moved down to `result`. Returns the
buffer and the new logical end. -/
def removeLoop (s : List Char) (value : Char) (result i : Nat) : List Char × Nat :=
  if h : i < s.length then
    if s[i] = value then removeLoop s value result (i + 1)
    else removeLoop (s.set result s[i]) value (result + 1) (i + 1)
  else (s, result)
termination_by s.length - i
decreasing_by
  · omega
  · simp only [List.length_set]
    omega

/-- The algorithm `std::remove(str.begin(), str.end(), ch)`: find the first
occurrence of `value`, then shift the later elements that differ from it down.
Returns the buffer and the iterator to the new logical end, as an index. -/
def remove (s : List Char) (value : Char) : List Char × Nat :=
  let first := s.findIdx (fun c => c == value)
  if first = s.length then (s, first) else removeLoop s value first (first + 1)

/-- The call `str.erase(it, str.end())`: drops everything from index `it` on. -/
def erase (s : List Char) (it : Nat) : List Char := s.take it

/-- The function `strToDouble` of the source. `atof` stands for the C library
conversion applied to `str.c_str()`. -/
def strToDouble (atof : String → double) (str : String) (ch : Char) : double :=
  let r := remove str.data ch
  atof (String.mk (erase r.1 r.2))

/-- The `for` loop of `loadBids`, entered with the current `i` and the bids pushed
so far. `file` is the parsed CSV: its rows, each a list of fields. An access
`file[i][k]` to a column the row does not have throws `csv::Error`; the `catch`
around the loop then ends the loading with the bids read so far. -/
def loadBidsLoop (atof : String → double) (file : List (List String)) (i : Nat)
    (bids : List (Bid double)) : List (Bid double) :=
  if h : i < file.length then
    match file[i][1]?, file[i][0]?, file[i][8]?, file[i][4]? with
    | some c1, some c0, some c8, some c4 =>
      loadBidsLoop atof file (i + 1)
        (bids ++ [{ bidId := c1, title := c0, fund := c8, amount := strToDouble atof c4 '$' }])
    | _, _, _, _ => bids
  else bids
termination_by file.length - i

/-- The function `loadBids` of the source, on the rows the CSV parser produced. -/
def loadBids (atof : String → double) (file : List (List String)) : List (Bid double) :=
  loadBidsLoop atof file 0 []

/-- The timing statements of the menu branches 3 and 4 of `main`, with the two
readings of `clock()` as inputs: `ticks = clock();`, the sort, the expression
statement `ticks - clock() - ticks;`, then `cout << ticks`. The result is the value
of the expression statement and the value printed. -/
def sortBranchTicks (clockBefore clockAfter : Int) : Int × Int :=
  let ticks := clockBefore
  let discarded := ticks - clockAfter - ticks
  (discarded, ticks)

/-- The timing statements of the menu branch 1 of `main`: `ticks = clock();`, the
load, the assignment `ticks = clock() - ticks;`, then `cout << ticks`. The result is
the value printed. -/
def loadBranchTicks (clockBefore clockAfter : Int) : Int :=
  let ticks := clockBefore
  let ticks := clockAfter - ticks
  ticks

/-! ## Notions used to state the contracts -/

/-- Spec wording: the string obtained from `raw` by deleting every occurrence of
`stripChar`, the other characters kept in order. -/
def deleteAll (raw : String) (stripChar : Char) : String :=
  String.mk (raw.data.filter (fun c => c ≠ stripChar))

/-- Every title at an index in `[lo, hi]` is at most `pivot`. -/
def titlesLe (bids : List (Bid double)) (pivot : String) (lo hi : Int) : Prop :=
  ∀ i, lo ≤ i → i ≤ hi → ∀ b, read bids i = some b → b.title ≤ pivot

/-- Every title at an index in `[lo, hi]` is at least `pivot`. -/
def titlesGe (bids : List (Bid double)) (pivot : String) (lo hi : Int) : Prop :=
  ∀ i, lo ≤ i → i ≤ hi → ∀ b, read bids i = some b → pivot ≤ b.title

/-- The vector `bids1` agrees with `bids` at every index outside `[lo, hi]`. -/
def sameOutside (bids bids1 : List (Bid double)) (lo hi : Int) : Prop :=
  ∀ i, i < lo ∨ hi < i → read bids1 i = read bids i

/-- Every element of `bids1` at an index in `[lo, hi]` is the element of `bids`
at some index in `[lo, hi]`. -/
def fromRange (bids bids1 : List (Bid double)) (lo hi : Int) : Prop :=
  ∀ i, lo ≤ i → i ≤ hi → ∃ j, lo ≤ j ∧ j ≤ hi ∧ read bids1 i = read bids j

/-- The titles at the indices of `[lo, hi]` are in ascending order. -/
def sortedOn (bids : List (Bid double)) (lo hi : Int) : Prop :=
  ∀ i j, lo ≤ i → i ≤ j → j ≤ hi →
    ∀ a b, read bids i = some a → read bids j = some b → a.title ≤ b.title

/-- A bid with the given identifier and title, for the worked examples. -/
def sampleBid (bidId title : String) : Bid Float :=
  { bidId := bidId, title := title, fund := "General Fund", amount := 0.0 }

/-- Spec wording: the record of a row has title = column 0, identifier = column 1,
fund = column 8 and amount = `parseAmount(column 4, '$')`. -/
def rowToBid (atof : String → double) (row : List String) : Bid double :=
  { bidId := row.getD 1 "", title := row.getD 0 "", fund := row.getD 8 "",
    amount := strToDouble atof (row.getD 4 "") '$' }

/-- A numeral without its optional leading sign. -/
def stripSign (l : List Char) : List Char :=
  if l.head? = some '+' ∨ l.head? = some '-' then l.tail else l

/-- Spec wording ("a valid decimal"): an optional sign, digits, and optionally a
point followed by digits, with at least one digit in all. -/
def isDecimal (l : List Char) : Bool :=
  let ip := (stripSign l).takeWhile Char.isDigit
  let rest := (stripSign l).dropWhile Char.isDigit
  if rest = [] then decide (0 < ip.length)
  else decide (rest.head? = some '.') && rest.tail.all Char.isDigit &&
    decide (0 < ip.length + rest.tail.length)

/-- The number a string of digits denotes. -/
def digitsValue (ds : List Char) : Nat :=
  ds.foldl (fun v c => 10 * v + (c.toNat - '0'.toNat)) 0

/-- The value of a decimal numeral, as an exact rational. -/
def decimalValue (l : List Char) : ℚ :=
  let ip := (stripSign l).takeWhile Char.isDigit
  let fp := ((stripSign l).dropWhile Char.isDigit).tail
  let v : ℚ := (digitsValue ip : ℚ) + (digitsValue fp : ℚ) / 10 ^ fp.length
  if l.head? = some '-' then -v else v

/-- Spec wording: the valid numeric prefixes of a string, shortest first. -/
def numericPrefixes (s : String) : List (List Char) :=
  s.data.inits.filter isDecimal

/-- Modelled from the spec: the conversion `atof` of the C library, which is not
part of the source. Section 4.1 and the glossary of the spec describe it as
leading-numeric-prefix parsing: the value of the longest valid numeric prefix of
the string, and 0.0 when no valid numeric prefix exists. The value is given as an
exact rational; 0.0 and 1.0 are the doubles of value 0 and 1. Leading white
space, exponents and the other forms the C library accepts are not in the spec's
description and are left out. -/
def atof (s : String) : ℚ :=
  match (numericPrefixes s).getLast? with
  | some p => decimalValue p
  | none => 0

/-- The records of `l` at the indices of `[lo, hi]`. -/
def slice (l : List α) (lo hi : Int) : List α :=
  (l.drop lo.toNat).take (hi - lo + 1).toNat

end Program

/-! ## The vector: indexing and `swap` -/

section Vector

variable {α : Type}

theorem read_eq_none_iff {bids : List α} {i : Int} :
    read bids i = none ↔ i < 0 ∨ (bids.length : Int) ≤ i := by
  unfold read
  split
  · rename_i h
    rw [List.getElem?_eq_none_iff]
    omega
  · rename_i h
    simp only [true_iff]
    omega

theorem read_of_bounds (bids : List α) (i : Int) (h0 : 0 ≤ i) (h1 : i < bids.length) :
    ∃ a, read bids i = some a := by
  cases h : read bids i with
  | some a => exact ⟨a, rfl⟩
  | none =>
    rw [read_eq_none_iff] at h
    omega

theorem read_mem {bids : List α} {i : Int} {a : α} (h : read bids i = some a) : a ∈ bids := by
  obtain ⟨-, h1, h2⟩ := read_eq_some_iff.mp h
  exact h2 ▸ List.getElem_mem h1

theorem read_natCast (bids : List α) (n : Nat) : read bids (n : Int) = bids[n]? := by
  simp [read]

theorem swap_length {bids bids1 : List α} {i j : Int} (h : swap bids i j = some bids1) :
    bids1.length = bids.length := by
  unfold swap at h
  split at h
  · cases h
    simp
  · cases h

theorem swap_of_bounds (bids : List α) (i j : Int) (hi0 : 0 ≤ i) (hi1 : i < bids.length)
    (hj0 : 0 ≤ j) (hj1 : j < bids.length) : ∃ bids1, swap bids i j = some bids1 := by
  obtain ⟨a, ha⟩ := read_of_bounds bids i hi0 hi1
  obtain ⟨b, hb⟩ := read_of_bounds bids j hj0 hj1
  exact ⟨(bids.set i.toNat b).set j.toNat a, by simp [swap, ha, hb]⟩

theorem swap_bounds {bids bids1 : List α} {i j : Int} (h : swap bids i j = some bids1) :
    (0 ≤ i ∧ i < bids.length) ∧ (0 ≤ j ∧ j < bids.length) := by
  unfold swap at h
  split at h
  · rename_i a b ha hb
    exact ⟨read_bounds ha, read_bounds hb⟩
  · cases h

/-- After a swap the two positions hold each other's former element and every
other position is as before. -/
theorem read_swap {bids bids1 : List α} {i j : Int} (h : swap bids i j = some bids1) (k : Int) :
    read bids1 k = if k = j then read bids i else if k = i then read bids j else read bids k := by
  unfold swap at h
  split at h
  · rename_i a b ha hb
    cases h
    have hi := read_bounds ha
    have hj := read_bounds hb
    by_cases hk : 0 ≤ k
    · by_cases hkj : k = j
      · subst hkj
        simp only [if_true, ha]
        simp [read, hk, List.getElem?_set]
        omega
      · by_cases hki : k = i
        · subst hki
          simp only [hkj, if_false, if_true, hb]
          have : ¬ j.toNat = k.toNat := by omega
          simp [read, hk, List.getElem?_set, this]
          omega
        · have h1 : ¬ j.toNat = k.toNat := by omega
          have h2 : ¬ i.toNat = k.toNat := by omega
          simp [read, hk, hkj, hki, List.getElem?_set, h1, h2]
    · have h1 : ¬ k = j := by omega
      have h2 : ¬ k = i := by omega
      simp [read, hk, h1, h2]
  · cases h

/-- A swap permutes the vector: no element is created, lost or altered. -/
theorem swap_perm {bids bids1 : List α} {i j : Int} (h : swap bids i j = some bids1) :
    bids1.Perm bids := by
  classical
  unfold swap at h
  split at h
  · rename_i a b ha hb
    cases h
    obtain ⟨hi0, hi1, hia⟩ := read_eq_some_iff.mp ha
    obtain ⟨hj0, hj1, hjb⟩ := read_eq_some_iff.mp hb
    rw [List.perm_iff_count]
    intro c
    have hj2 : j.toNat < (bids.set i.toNat b).length := by simpa using hj1
    rw [List.count_set _ _ _ _ hj2, List.count_set _ _ _ _ hi1, List.getElem_set]
    have hca : a = c → 0 < List.count c bids := fun e =>
      List.count_pos_iff.mpr (e ▸ hia ▸ List.getElem_mem hi1)
    have hcb : b = c → 0 < List.count c bids := fun e =>
      List.count_pos_iff.mpr (e ▸ hjb ▸ List.getElem_mem hj1)
    simp only [hia, hjb, beq_iff_eq]
    by_cases hij : i.toNat = j.toNat
    · have hab : a = b := by
        rw [← hia, ← hjb]
        simp only [hij]
      subst hab
      simp only [hij, if_true]
      by_cases hac : a = c
      · have := hca hac
        simp only [hac, if_true]
        omega
      · simp [hac]
    · simp only [hij, if_false]
      by_cases hac : a = c <;> by_cases hbc : b = c
      · have := hca hac
        simp only [hac, hbc, if_true]
        omega
      · have := hca hac
        simp only [hac, hbc, if_true, if_false]
        omega
      · have := hcb hbc
        simp only [hac, hbc, if_true, if_false]
        omega
      · simp [hac, hbc]
  · cases h

end Vector

section Sorting

variable {double : Type}

/-! ## The contract of `partition` -/

/-- The low scan stops, inside the vector, as soon as some position at or after
`low` holds a title that is not below the pivot. -/
theorem advanceLow_stops {bids : List (Bid double)} {pivot : String} {k : Int} {bk : Bid double}
    (hk : read bids k = some bk) (hp : ¬ bk.title < pivot) :
    ∀ low, 0 ≤ low → low ≤ k → ∃ r, advanceLow bids pivot low = some r ∧ r ≤ k := by
  have hkb := read_bounds hk
  intro low
  generalize hn : (k - low).toNat = n
  induction n using Nat.strong_induction_on generalizing low with
  | _ n ih =>
    intro h0 hlk
    subst hn
    obtain ⟨b, hb⟩ := read_of_bounds bids _ h0 (by omega)
    rw [advanceLow]
    split
    · rename_i hnone
      rw [hnone] at hb
      cases hb
    · rename_i b1 hb1
      have e : b1 = b := Option.some.inj (hb1.symm.trans hb)
      subst e
      by_cases hlt : b1.title < pivot
      · rw [if_pos hlt]
        have hne : low ≠ k := by
          intro e
          subst e
          have e2 : bk = b1 := Option.some.inj (hk.symm.trans hb)
          exact hp (e2 ▸ hlt)
        exact ih (k - (low + 1)).toNat (by omega) (low + 1) rfl (by omega) (by omega)
      · rw [if_neg hlt]
        exact ⟨low, rfl, hlk⟩

/-- The high scan stops, inside the vector, as soon as some position at or before
`high` holds a title that is not above the pivot. -/
theorem retreatHigh_stops {bids : List (Bid double)} {pivot : String} {k : Int} {bk : Bid double}
    (hk : read bids k = some bk) (hp : ¬ pivot < bk.title) :
    ∀ high : Int, high < bids.length → k ≤ high → ∃ r, retreatHigh bids pivot high = some r ∧ k ≤ r := by
  have hkb := read_bounds hk
  intro high
  generalize hn : (high - k).toNat = n
  induction n using Nat.strong_induction_on generalizing high with
  | _ n ih =>
    intro h0 hlk
    subst hn
    obtain ⟨b, hb⟩ := read_of_bounds bids high (by omega) h0
    rw [retreatHigh]
    split
    · rename_i hnone
      rw [hnone] at hb
      cases hb
    · rename_i b1 hb1
      have e : b1 = b := Option.some.inj (hb1.symm.trans hb)
      subst e
      by_cases hlt : pivot < b1.title
      · rw [if_pos hlt]
        have hne : high ≠ k := by
          intro e
          subst e
          have e2 : bk = b1 := Option.some.inj (hk.symm.trans hb)
          exact hp (e2 ▸ hlt)
        exact ih (high - 1 - k).toNat (by omega) (high - 1) rfl (by omega) (by omega)
      · rw [if_neg hlt]
        exact ⟨high, rfl, hlk⟩

theorem partitionLoop_eq (bids : List (Bid double)) (pivot : String) (low high : Int) :
    partitionLoop bids pivot low high =
      (advanceLow bids pivot low).bind fun low1 =>
        (retreatHigh bids pivot high).bind fun high1 =>
          if low1 ≥ high1 then some (bids, high1)
          else (swap bids low1 high1).bind fun bids1 =>
            partitionLoop bids1 pivot (low1 + 1) (high1 - 1) := by
  rw [partitionLoop]
  split
  · rename_i h
    rw [h]
    rfl
  · rename_i l1 hl
    rw [hl]
    simp only [Option.some_bind]
    split
    · rename_i h
      rw [h]
      rfl
    · rename_i h1 hh
      rw [hh]
      simp only [Option.some_bind]
      split
      · rfl
      · split
        · rename_i h
          rw [h]
          rfl
        · rename_i b1 hs
          rw [hs]
          rfl

theorem partitionLoop_spec (pivot : String) (begin end_ : Int) (n : Nat) :
    ∀ (bids : List (Bid double)) (low high : Int), (high - low).toNat = n →
      0 ≤ begin → end_ < bids.length → begin ≤ low → high ≤ end_ →
      titlesLe bids pivot begin (low - 1) → titlesGe bids pivot (high + 1) end_ →
      (∃ kl b, low ≤ kl ∧ kl ≤ end_ ∧ (high < end_ ∨ kl < end_) ∧
        read bids kl = some b ∧ ¬ b.title < pivot) →
      (∃ kh b, begin ≤ kh ∧ kh ≤ high ∧ read bids kh = some b ∧ ¬ pivot < b.title) →
      ∃ bids1 p, partitionLoop bids pivot low high = some (bids1, p) ∧ begin ≤ p ∧ p < end_ ∧
        bids1.length = bids.length ∧ bids1.Perm bids ∧ sameOutside bids bids1 low high ∧
        fromRange bids bids1 begin end_ ∧
        titlesLe bids1 pivot begin p ∧ titlesGe bids1 pivot (p + 1) end_ := by
  induction n using Nat.strong_induction_on with
  | _ n ih =>
    intro bids low high hn hb0 he1 hbl hhe hI1 hI2 hS1 hS2
    obtain ⟨kl, bl, hkl1, hkl2, hkl3, hkl4, hkl5⟩ := hS1
    obtain ⟨kh, bh, hkh1, hkh2, hkh3, hkh4⟩ := hS2
    obtain ⟨l1, hl, hl1k⟩ := advanceLow_stops hkl4 hkl5 low (by omega) hkl1
    obtain ⟨h1, hh, hh1k⟩ := retreatHigh_stops hkh3 hkh4 high (by omega) hkh2
    obtain ⟨hl2, ⟨bl1, hbl1, hbl2⟩, hl3⟩ := advanceLow_sound hl
    obtain ⟨hh2, ⟨bh1, hbh1, hbh2⟩, hh3⟩ := retreatHigh_sound hh
    rw [partitionLoop_eq, hl, hh]
    simp only [Option.some_bind]
    by_cases hc : l1 ≥ h1
    · rw [if_pos hc]
      refine ⟨bids, h1, rfl, by omega, by omega, rfl, List.Perm.refl _, fun i _ => rfl,
        fun i h1 h2 => ⟨i, h1, h2, rfl⟩, ?_, ?_⟩
      · intro i hi1 hi2 b hb
        by_cases hlow : i < low
        · exact hI1 i hi1 (by omega) b hb
        · by_cases hil : i < l1
          · exact le_of_lt (hl3 i (by omega) hil b hb)
          · have e : i = h1 := by omega
            subst e
            have e2 : b = bh1 := Option.some.inj (hb.symm.trans hbh1)
            subst e2
            exact not_lt.mp hbh2
      · intro i hi1 hi2 b hb
        by_cases hhigh : high < i
        · exact hI2 i (by omega) hi2 b hb
        · exact le_of_lt (hh3 i (by omega) (by omega) b hb)
    · rw [if_neg hc]
      have hlb := read_bounds hbl1
      have hhb := read_bounds hbh1
      obtain ⟨bids1, hs⟩ := swap_of_bounds bids l1 h1 hlb.1 hlb.2 hhb.1 hhb.2
      have hlen := swap_length hs
      have hrd := read_swap hs
      rw [hs]
      simp only [Option.some_bind]
      have hrl : read bids1 l1 = some bh1 := by
        rw [hrd, if_neg (by omega), if_pos rfl, hbh1]
      have hrh : read bids1 h1 = some bl1 := by
        rw [hrd, if_pos rfl, hbl1]
      have hro : ∀ i, i ≠ l1 → i ≠ h1 → read bids1 i = read bids i := by
        intro i h1 h2
        rw [hrd, if_neg h2, if_neg h1]
      obtain ⟨bids2, p, hp, hp1, hp2, hp3, hp4, hp5, hp6, hp7, hp8⟩ :=
        ih (h1 - 1 - (l1 + 1)).toNat (by omega) bids1 (l1 + 1) (h1 - 1) rfl hb0
          (by omega) (by omega) (by omega)
          (by
            intro i hi1 hi2 b hb
            by_cases e : i = l1
            · subst e
              have e2 : b = bh1 := Option.some.inj (hb.symm.trans hrl)
              subst e2
              exact not_lt.mp hbh2
            · rw [hro i e (by omega)] at hb
              by_cases hlow : i < low
              · exact hI1 i hi1 (by omega) b hb
              · exact le_of_lt (hl3 i (by omega) (by omega) b hb))
          (by
            intro i hi1 hi2 b hb
            by_cases e : i = h1
            · subst e
              have e2 : b = bl1 := Option.some.inj (hb.symm.trans hrh)
              subst e2
              exact not_lt.mp hbl2
            · rw [hro i (by omega) e] at hb
              by_cases hhigh : high < i
              · exact hI2 i (by omega) hi2 b hb
              · exact le_of_lt (hh3 i (by omega) (by omega) b hb))
          ⟨h1, bl1, by omega, by omega, Or.inl (by omega), hrh, hbl2⟩
          ⟨l1, bh1, by omega, by omega, hrl, hbh2⟩
      refine ⟨bids2, p, hp, hp1, hp2, hp3.trans hlen, hp4.trans (swap_perm hs), ?_, ?_, hp7, hp8⟩
      · intro i hi
        rw [hp5 i (by omega), hro i (by omega) (by omega)]
      · intro i hi1 hi2
        obtain ⟨j, hj1, hj2, hj3⟩ := hp6 i hi1 hi2
        by_cases e1 : j = h1
        · exact ⟨l1, by omega, by omega, by rw [hj3, e1, hrh, hbl1]⟩
        · by_cases e2 : j = l1
          · exact ⟨h1, by omega, by omega, by rw [hj3, e2, hrl, hbh1]⟩
          · exact ⟨j, hj1, hj2, by rw [hj3, hro j e2 e1]⟩

theorem advanceLow_start {bids : List (Bid double)} {pivot : String} {low r : Int}
    (h : advanceLow bids pivot low = some r) : 0 ≤ low := by
  rw [advanceLow] at h
  split at h
  · cases h
  · rename_i b hb
    exact (read_bounds hb).1

theorem retreatHigh_start {bids : List (Bid double)} {pivot : String} {high r : Int}
    (h : retreatHigh bids pivot high = some r) : high < bids.length := by
  rw [retreatHigh] at h
  split at h
  · cases h
  · rename_i b hb
    exact (read_bounds hb).2

/-- The middle index of `partition` lies in `[begin, end)` when `begin < end`. -/
theorem middlePoint_bounds {begin end_ : Int} (hlt : begin < end_) :
    begin ≤ begin + (end_ - begin).tdiv 2 ∧ begin + (end_ - begin).tdiv 2 < end_ := by
  rw [Int.tdiv_eq_ediv (by omega) (by omega)]
  omega

/-- The contract of `partition` on a range `0 ≤ begin < end < size`: it returns,
the split index `p` lies in `[begin, end)`, the vector is permuted inside the
range only, titles in `[begin, p]` are at most the pivot and titles in
`[p + 1, end]` are at least the pivot. -/
theorem partition_spec (bids : List (Bid double)) (begin end_ : Int)
    (h0 : 0 ≤ begin) (hlt : begin < end_) (h1 : end_ < bids.length) :
    ∃ pv bids1 p, read bids (begin + (end_ - begin).tdiv 2) = some pv ∧
      partition bids begin end_ = some (bids1, p) ∧ begin ≤ p ∧ p < end_ ∧
      bids1.length = bids.length ∧ bids1.Perm bids ∧ sameOutside bids bids1 begin end_ ∧
      fromRange bids bids1 begin end_ ∧
      titlesLe bids1 pv.title begin p ∧ titlesGe bids1 pv.title (p + 1) end_ := by
  have hm := middlePoint_bounds hlt
  obtain ⟨pv, hpv⟩ := read_of_bounds bids (begin + (end_ - begin).tdiv 2)
    (by omega) (by omega)
  obtain ⟨bids1, p, hp⟩ := partitionLoop_spec pv.title begin end_ _ bids begin end_ rfl h0 h1
    (le_refl _) (le_refl _) (fun i h1 h2 => by omega) (fun i h1 h2 => by omega)
    ⟨_, pv, hm.1, le_of_lt hm.2, Or.inr hm.2, hpv, lt_irrefl _⟩
    ⟨_, pv, hm.1, le_of_lt hm.2, hpv, lt_irrefl _⟩
  refine ⟨pv, bids1, p, hpv, ?_, hp.2⟩
  simp only [partition, hpv]
  exact hp.1

/-- When `partition` returns at all, its range lies inside the vector. -/
theorem partition_range {bids bids1 : List (Bid double)} {begin end_ p : Int}
    (h : partition bids begin end_ = some (bids1, p)) : 0 ≤ begin ∧ end_ < bids.length := by
  simp only [partition] at h
  split at h
  · cases h
  · rename_i b hb
    rw [partitionLoop_eq] at h
    cases hl : advanceLow bids b.title begin with
    | none => simp [hl] at h
    | some l1 =>
      cases hh : retreatHigh bids b.title end_ with
      | none => simp [hl, hh] at h
      | some h1 => exact ⟨advanceLow_start hl, retreatHigh_start hh⟩

/-- The split index returned by `partition` on a range of at least two elements
lies in `[begin, end)`: each of the two ranges `quickSort` recurses on is strictly
shorter than `[begin, end]`. -/
theorem partition_split_bounds {bids bids1 : List (Bid double)} {begin end_ p : Int}
    (h : partition bids begin end_ = some (bids1, p)) (hlt : begin < end_) :
    begin ≤ p ∧ p < end_ := by
  obtain ⟨h0, h1⟩ := partition_range h
  obtain ⟨pv, bids2, q, -, hq, hq1, hq2, -⟩ := partition_spec bids begin end_ h0 hlt h1
  rw [h] at hq
  cases hq
  exact ⟨hq1, hq2⟩

/-! ## `quickSort`

The recursion of `quickSort` is well founded because the split index that
`partition` returns lies in `[begin, end)`: the definition comes after that fact. -/

/-- The function `quickSort` of the source: nothing to do when `begin >= end`,
otherwise partition and sort `[begin, mid]` and `[mid + 1, end]`. -/
def quickSort (bids : List (Bid double)) (begin end_ : Int) : Option (List (Bid double)) :=
  if hbe : begin ≥ end_ then some bids
  else
    match hp : partition bids begin end_ with
    | none => none
    | some (bids1, mid) =>
      match quickSort bids1 begin mid with
      | none => none
      | some bids2 => quickSort bids2 (mid + 1) end_
termination_by (end_ - begin).toNat
decreasing_by
  · have := partition_split_bounds hp (by omega)
    omega
  · have := partition_split_bounds hp (by omega)
    omega

theorem quickSort_base {bids : List (Bid double)} {begin end_ : Int} (h : begin ≥ end_) :
    quickSort bids begin end_ = some bids := by
  rw [quickSort, dif_pos h]

theorem quickSort_step {bids bids1 : List (Bid double)} {begin end_ mid : Int}
    (h : ¬ begin ≥ end_) (hp : partition bids begin end_ = some (bids1, mid)) :
    quickSort bids begin end_ =
      (quickSort bids1 begin mid).bind fun bids2 => quickSort bids2 (mid + 1) end_ := by
  rw [quickSort, dif_neg h]
  split
  · rename_i hn
    rw [hn] at hp
    cases hp
  · rename_i b1 m1 hp1
    rw [hp1] at hp
    cases hp
    split
    · rename_i hq
      rw [hq]
      rfl
    · rename_i b2 hq
      rw [hq]
      rfl

/-- The contract of `quickSort` on a range inside the vector: it returns, the
vector is permuted inside `[begin, end]` only, and the range ends up in
ascending title order. -/
theorem quickSort_spec (n : Nat) :
    ∀ (bids : List (Bid double)) (begin end_ : Int), (end_ - begin).toNat = n →
      0 ≤ begin → end_ < bids.length →
      ∃ r, quickSort bids begin end_ = some r ∧ r.length = bids.length ∧ r.Perm bids ∧
        sameOutside bids r begin end_ ∧ fromRange bids r begin end_ ∧
        sortedOn r begin end_ := by
  induction n using Nat.strong_induction_on with
  | _ n ih =>
    intro bids begin end_ hn h0 h1
    by_cases hbe : begin ≥ end_
    · refine ⟨bids, quickSort_base hbe, rfl, List.Perm.refl _, fun i _ => rfl,
        fun i h1 h2 => ⟨i, h1, h2, rfl⟩, ?_⟩
      intro i j hi hij hj a b ha hb
      have e : i = j := by omega
      subst e
      have e2 : a = b := Option.some.inj (ha.symm.trans hb)
      rw [e2]
    · obtain ⟨pv, bids1, p, -, hp, hp1, hp2, hlen1, hperm1, hout1, hfrom1, hle, hge⟩ :=
        partition_spec bids begin end_ h0 (by omega) h1
      obtain ⟨bids2, hq2, hlen2, hperm2, hout2, hfrom2, hsort2⟩ :=
        ih (p - begin).toNat (by omega) bids1 begin p rfl h0 (by omega)
      obtain ⟨bids3, hq3, hlen3, hperm3, hout3, hfrom3, hsort3⟩ :=
        ih (end_ - (p + 1)).toNat (by omega) bids2 (p + 1) end_ rfl (by omega) (by omega)
      refine ⟨bids3, ?_, by omega, (hperm3.trans hperm2).trans hperm1, ?_, ?_, ?_⟩
      · rw [quickSort_step hbe hp, hq2]
        exact hq3
      · intro i hi
        rw [hout3 i (by omega), hout2 i (by omega), hout1 i hi]
      · intro i hi1 hi2
        by_cases hip : i ≤ p
        · obtain ⟨j, hj1, hj2, hj3⟩ := hfrom2 i hi1 hip
          obtain ⟨k, hk1, hk2, hk3⟩ := hfrom1 j hj1 (by omega)
          exact ⟨k, hk1, hk2, by rw [hout3 i (by omega), hj3, hk3]⟩
        · obtain ⟨j, hj1, hj2, hj3⟩ := hfrom3 i (by omega) hi2
          obtain ⟨k, hk1, hk2, hk3⟩ := hfrom1 j (by omega) hj2
          exact ⟨k, hk1, hk2, by rw [hj3, hout2 j (by omega), hk3]⟩
      · intro i j hi hij hj a b ha hb
        by_cases hjp : j ≤ p
        · rw [hout3 i (by omega)] at ha
          rw [hout3 j (by omega)] at hb
          exact hsort2 i j hi hij hjp a b ha hb
        · by_cases hip : i ≤ p
          · rw [hout3 i (by omega)] at ha
            obtain ⟨i1, hi1, hi2, hi3⟩ := hfrom2 i hi hip
            rw [hi3] at ha
            obtain ⟨j1, hj1, hj2, hj3⟩ := hfrom3 j (by omega) hj
            rw [hj3, hout2 j1 (by omega)] at hb
            exact le_trans (hle i1 hi1 hi2 a ha) (hge j1 hj1 hj2 b hb)
          · exact hsort3 i j (by omega) hij hj a b ha hb

/-- Ascending order over the whole index range, stated on adjacent elements. -/
theorem chain_of_sortedOn {r : List (Bid double)} (h : sortedOn r 0 ((r.length : Int) - 1)) :
    List.Chain' (fun a b => a.title ≤ b.title) r := by
  rw [List.chain'_iff_get]
  intro i hi
  apply h (i : Int) ((i + 1 : Nat) : Int) (by omega) (by push_cast; omega) (by push_cast; omega)
  · rw [read_natCast, List.getElem?_eq_getElem (by omega)]
    rfl
  · rw [read_natCast, List.getElem?_eq_getElem (by omega)]
    rfl

/-! ## `selectionSort` -/

theorem selectionSortInner_done {bids : List (Bid double)} {size_t j min : Int}
    (h : ¬ j < size_t - 1) : selectionSortInner bids size_t j min = some min := by
  rw [selectionSortInner, if_neg h]

theorem selectionSortInner_step {bids : List (Bid double)} {size_t j min : Int}
    (bj bm : Bid double) (h : j < size_t - 1) (hj : read bids j = some bj)
    (hm : read bids min = some bm) :
    selectionSortInner bids size_t j min =
      selectionSortInner bids size_t (j + 1) (if bj.title < bm.title then j else min) := by
  rw [selectionSortInner, if_pos h, hj, hm]
  simp only
  split <;> rfl

theorem selectionSortOuter_done {bids : List (Bid double)} {size_t pos : Int}
    (h : ¬ pos < size_t - 1) : selectionSortOuter bids size_t pos = some bids := by
  rw [selectionSortOuter, if_neg h]

theorem selectionSortOuter_keep {bids : List (Bid double)} {size_t pos : Int}
    (h : pos < size_t - 1)
    (hi : selectionSortInner bids (bids.length : Int) (pos + 1) pos = some pos) :
    selectionSortOuter bids size_t pos = selectionSortOuter bids size_t (pos + 1) := by
  rw [selectionSortOuter, if_pos h, hi]
  simp

theorem selectionSortOuter_swap {bids bids1 : List (Bid double)} {size_t pos min : Int}
    (h : pos < size_t - 1)
    (hi : selectionSortInner bids (bids.length : Int) (pos + 1) pos = some min)
    (hne : min ≠ pos) (hs : swap bids pos min = some bids1) :
    selectionSortOuter bids size_t pos = selectionSortOuter bids1 size_t (pos + 1) := by
  rw [selectionSortOuter, if_pos h, hi]
  simp only [ne_eq, hne, not_false_eq_true, if_true, hs]

/-- The inner loop returns an index inside the vector: the `min` it was entered
with, or an index the loop visited. -/
theorem selectionSortInner_spec (bids : List (Bid double)) (n : Nat) :
    ∀ j min : Int, ((bids.length : Int) - 1 - j).toNat = n → 0 ≤ j → 0 ≤ min →
      min < bids.length →
      ∃ m, selectionSortInner bids (bids.length : Int) j min = some m ∧ 0 ≤ m ∧
        m < bids.length ∧ (m = min ∨ (j ≤ m ∧ m < (bids.length : Int) - 1)) := by
  induction n using Nat.strong_induction_on with
  | _ n ih =>
    intro j min hn hj hm0 hm1
    by_cases hlt : j < (bids.length : Int) - 1
    · obtain ⟨bj, hbj⟩ := read_of_bounds bids _ hj (by omega)
      obtain ⟨bm, hbm⟩ := read_of_bounds bids _ hm0 hm1
      rw [selectionSortInner_step bj bm hlt hbj hbm]
      by_cases hc : bj.title < bm.title
      · rw [if_pos hc]
        obtain ⟨m, h1, h2, h3, h4⟩ :=
          ih ((bids.length : Int) - 1 - (j + 1)).toNat (by omega) (j + 1) j rfl (by omega) hj
            (by omega)
        exact ⟨m, h1, h2, h3, by omega⟩
      · rw [if_neg hc]
        obtain ⟨m, h1, h2, h3, h4⟩ :=
          ih ((bids.length : Int) - 1 - (j + 1)).toNat (by omega) (j + 1) min rfl (by omega) hm0
            hm1
        exact ⟨m, h1, h2, h3, by omega⟩
    · exact ⟨min, selectionSortInner_done hlt, hm0, hm1, Or.inl rfl⟩

/-- The inner loop keeps `min` when no title it visits is strictly smaller. -/
theorem selectionSortInner_keep (bids : List (Bid double)) (size_t min : Int) (n : Nat) :
    ∀ j : Int, (size_t - 1 - j).toNat = n → 0 ≤ j → size_t ≤ bids.length → 0 ≤ min →
      min < bids.length →
      (∀ k, j ≤ k → k < size_t - 1 → ∀ bk bm, read bids k = some bk → read bids min = some bm →
        ¬ bk.title < bm.title) →
      selectionSortInner bids size_t j min = some min := by
  induction n using Nat.strong_induction_on with
  | _ n ih =>
    intro j hn hj hs hm0 hm1 hk
    by_cases hlt : j < size_t - 1
    · obtain ⟨bj, hbj⟩ := read_of_bounds bids _ hj (by omega)
      obtain ⟨bm, hbm⟩ := read_of_bounds bids _ hm0 hm1
      rw [selectionSortInner_step bj bm hlt hbj hbm, if_neg (hk j (le_refl _) hlt bj bm hbj hbm)]
      exact ih (size_t - 1 - (j + 1)).toNat (by omega) (j + 1) rfl (by omega) hs hm0 hm1
        (fun k h1 h2 => hk k (by omega) h2)
    · exact selectionSortInner_done hlt

/-- The outer loop returns, and what it returns is a permutation of the vector
it was entered with. -/
theorem selectionSortOuter_perm (size_t : Int) (n : Nat) :
    ∀ (bids : List (Bid double)) (pos : Int), (size_t - 1 - pos).toNat = n → 0 ≤ pos →
      size_t = bids.length →
      ∃ r, selectionSortOuter bids size_t pos = some r ∧ r.Perm bids := by
  induction n using Nat.strong_induction_on with
  | _ n ih =>
    intro bids pos hn hp hs
    by_cases hlt : pos < size_t - 1
    · obtain ⟨m, hm, hm0, hm1, -⟩ :=
        selectionSortInner_spec bids _ (pos + 1) pos rfl (by omega) hp (by omega)
      by_cases hne : m = pos
      · subst hne
        rw [selectionSortOuter_keep hlt hm]
        exact ih (size_t - 1 - (m + 1)).toNat (by omega) bids (m + 1) rfl (by omega) hs
      · obtain ⟨bids1, hsw⟩ := swap_of_bounds bids pos m hp (by omega) hm0 hm1
        rw [selectionSortOuter_swap hlt hm hne hsw]
        obtain ⟨r, hr1, hr2⟩ :=
          ih (size_t - 1 - (pos + 1)).toNat (by omega) bids1 (pos + 1) rfl (by omega)
            (by rw [swap_length hsw]; exact hs)
        exact ⟨r, hr1, hr2.trans (swap_perm hsw)⟩
    · exact ⟨bids, selectionSortOuter_done hlt, List.Perm.refl _⟩

/-- On a vector whose titles are already ascending, the outer loop never swaps. -/
theorem selectionSortOuter_sorted (bids : List (Bid double)) (size_t : Int)
    (hs : size_t = bids.length) (hsorted : sortedOn bids 0 ((bids.length : Int) - 1)) (n : Nat) :
    ∀ pos : Int, (size_t - 1 - pos).toNat = n → 0 ≤ pos →
      selectionSortOuter bids size_t pos = some bids := by
  induction n using Nat.strong_induction_on with
  | _ n ih =>
    intro pos hn hp
    by_cases hlt : pos < size_t - 1
    · have hk : selectionSortInner bids (bids.length : Int) (pos + 1) pos = some pos :=
        selectionSortInner_keep bids _ pos _ (pos + 1) rfl (by omega) (le_refl _) hp (by omega)
          (fun k h1 h2 bk bm hbk hbm =>
            not_lt.mpr (hsorted pos k hp (by omega) (by omega) bm bk hbm hbk))
      rw [selectionSortOuter_keep hlt hk]
      exact ih (size_t - 1 - (pos + 1)).toNat (by omega) (pos + 1) rfl (by omega)
    · exact selectionSortOuter_done hlt

/-! ## `strToDouble` -/

theorem removeLoop_spec (value : Char) (n : Nat) :
    ∀ (s : List Char) (result i : Nat), s.length - i = n → result ≤ i →
      erase (removeLoop s value result i).1 (removeLoop s value result i).2 =
        s.take result ++ (s.drop i).filter (fun c => c ≠ value) := by
  induction n using Nat.strong_induction_on with
  | _ n ih =>
    intro s result i hn hri
    rw [removeLoop]
    by_cases h : i < s.length
    · rw [dif_pos h]
      have hd : s.drop i = s[i] :: s.drop (i + 1) := List.drop_eq_getElem_cons h
      by_cases hv : s[i] = value
      · rw [if_pos hv, ih (s.length - (i + 1)) (by omega) s result (i + 1) rfl (by omega), hd,
          List.filter_cons_of_neg (by simpa using hv)]
      · rw [if_neg hv, ih ((s.set result s[i]).length - (i + 1)) (by simp; omega)
          (s.set result s[i]) (result + 1) (i + 1) rfl (by omega), hd]
        have h1 : (s.set result s[i]).take (result + 1) = s.take result ++ [s[i]] := by
          rw [List.take_succ, List.set_take,
            List.set_eq_of_length_le (by rw [List.length_take]; omega)]
          simp [List.getElem?_set, show result < s.length by omega]
        have h2 : (s.set result s[i]).drop (i + 1) = s.drop (i + 1) := by
          rw [List.drop_set_of_lt _ _ (by omega)]
        rw [h1, h2, List.filter_cons_of_pos (by simpa using hv)]
        simp
    · rw [dif_neg h]
      simp [erase, List.drop_eq_nil_of_le (show s.length ≤ i by omega)]

/-- Erasing from the end that `std::remove` returns leaves exactly the characters
different from `value`, in their order. -/
theorem erase_remove (s : List Char) (value : Char) :
    erase (remove s value).1 (remove s value).2 = s.filter (fun c => c ≠ value) := by
  have hpre : (s.take (s.findIdx (fun c => c == value))).filter (fun c => c ≠ value) =
      s.take (s.findIdx (fun c => c == value)) := by
    rw [List.filter_eq_self]
    intro a ha
    obtain ⟨i, hi, rfl⟩ := List.mem_iff_getElem.mp ha
    rw [List.length_take] at hi
    have := @List.not_of_lt_findIdx _ (fun c => c == value) s i (by omega)
    rw [List.getElem_take]
    simpa using this
  unfold remove
  simp only
  by_cases h : s.findIdx (fun c => c == value) = s.length
  · rw [if_pos h]
    simp only [erase]
    rw [h, List.take_length] at hpre ⊢
    exact hpre.symm
  · rw [if_neg h]
    have hlt : s.findIdx (fun c => c == value) < s.length :=
      lt_of_le_of_ne (List.findIdx_le_length _) h
    rw [removeLoop_spec value _ s _ _ rfl (Nat.le_succ _)]
    have hat : s[s.findIdx (fun c => c == value)] = value := by
      simpa using @List.findIdx_getElem _ (fun c => c == value) s hlt
    conv_rhs => rw [← List.take_append_drop (s.findIdx (fun c => c == value)) s]
    rw [List.filter_append, hpre, List.drop_eq_getElem_cons hlt,
      List.filter_cons_of_neg (by simpa using hat)]

/-- What `strToDouble` hands to `atof` is the input without the stripped
character. -/
theorem strToDouble_eq (atof : String → double) (str : String) (ch : Char) :
    strToDouble atof str ch = atof (deleteAll str ch) := by
  unfold strToDouble deleteAll
  simp only [erase_remove]

/-! ## Unfolding steps, for evaluating the code on a given vector -/

theorem advanceLow_eval (bids : List (Bid double)) (pivot : String) (low : Int) :
    advanceLow bids pivot low =
      if 0 ≤ low ∧ low < bids.length then
        (match read bids low with
         | none => none
         | some b => if b.title < pivot then advanceLow bids pivot (low + 1) else some low)
      else none := by
  rw [advanceLow]
  split
  · rename_i h
    rw [h]
    simp
  · rename_i b h
    rw [h, if_pos (read_bounds h)]

theorem retreatHigh_eval (bids : List (Bid double)) (pivot : String) (high : Int) :
    retreatHigh bids pivot high =
      if 0 ≤ high ∧ high < bids.length then
        (match read bids high with
         | none => none
         | some b => if pivot < b.title then retreatHigh bids pivot (high - 1) else some high)
      else none := by
  rw [retreatHigh]
  split
  · rename_i h
    rw [h]
    simp
  · rename_i b h
    rw [h, if_pos (read_bounds h)]

theorem partitionLoop_done {bids : List (Bid double)} {pivot : String} {low high : Int}
    (l1 h1 : Int)
    (hl : advanceLow bids pivot low = some l1) (hh : retreatHigh bids pivot high = some h1)
    (hc : l1 ≥ h1) : partitionLoop bids pivot low high = some (bids, h1) := by
  rw [partitionLoop_eq, hl, hh]
  simp only [Option.some_bind, if_pos hc]

theorem partitionLoop_step {bids bids1 : List (Bid double)} {pivot : String}
    {low high : Int} (l1 h1 : Int)
    (hl : advanceLow bids pivot low = some l1) (hh : retreatHigh bids pivot high = some h1)
    (hc : ¬ l1 ≥ h1) (hs : swap bids l1 h1 = some bids1) :
    partitionLoop bids pivot low high = partitionLoop bids1 pivot (l1 + 1) (h1 - 1) := by
  rw [partitionLoop_eq, hl, hh]
  simp only [Option.some_bind, if_neg hc, hs]

theorem partition_eq {bids : List (Bid double)} {begin end_ m : Int} {b : Bid double}
    (hm : begin + (end_ - begin).tdiv 2 = m) (h : read bids m = some b) :
    partition bids begin end_ = partitionLoop bids b.title begin end_ := by
  subst hm
  simp only [partition, h]

/-! ## The whole-vector calls -/

/-- Ascending adjacent titles give ascending titles over the whole index range. -/
theorem sortedOn_of_chain {S : List (Bid double)}
    (h : List.Chain' (fun a b => a.title ≤ b.title) S) :
    sortedOn S 0 ((S.length : Int) - 1) := by
  haveI : IsTrans (Bid double) (fun a b => a.title ≤ b.title) := ⟨fun _ _ _ => le_trans⟩
  have hp := List.chain'_iff_pairwise.mp h
  rw [List.pairwise_iff_getElem] at hp
  intro i j hi hij hj a b ha hb
  obtain ⟨-, hi1, hia⟩ := read_eq_some_iff.mp ha
  obtain ⟨-, hj1, hjb⟩ := read_eq_some_iff.mp hb
  by_cases e : i = j
  · subst e
    rw [← hia, ← hjb]
  · rw [← hia, ← hjb]
    exact hp i.toNat j.toNat hi1 hj1 (by omega)

/-- The titles of two permutations of each other, both ascending, are the same
sequence. -/
theorem titles_eq_of_perm_of_chain {r S : List (Bid double)} (hperm : r.Perm S)
    (hr : List.Chain' (fun a b => a.title ≤ b.title) r)
    (hS : List.Chain' (fun a b => a.title ≤ b.title) S) :
    r.map Bid.title = S.map Bid.title := by
  haveI : IsTrans (Bid double) (fun a b => a.title ≤ b.title) := ⟨fun _ _ _ => le_trans⟩
  have h1 : (r.map Bid.title).Sorted (· ≤ ·) :=
    List.pairwise_map.mpr (List.chain'_iff_pairwise.mp hr)
  have h2 : (S.map Bid.title).Sorted (· ≤ ·) :=
    List.pairwise_map.mpr (List.chain'_iff_pairwise.mp hS)
  exact List.eq_of_perm_of_sorted (hperm.map Bid.title) h1 h2

/-- The whole-vector call `quickSort(bids, 0, bids.size() - 1)` returns a
permutation of the vector in ascending title order. -/
theorem quickSort_whole (S : List (Bid double)) :
    ∃ r, quickSort S 0 ((S.length : Int) - 1) = some r ∧ r.Perm S ∧
      List.Chain' (fun a b => a.title ≤ b.title) r := by
  obtain ⟨r, hr, hlen, hperm, -, -, hsort⟩ :=
    quickSort_spec _ S 0 ((S.length : Int) - 1) rfl (le_refl _) (by omega)
  refine ⟨r, hr, hperm, chain_of_sortedOn ?_⟩
  rw [hlen]
  exact hsort

/-- The whole-vector call `selectionSort(bids)` returns a permutation of the
vector. -/
theorem selectionSort_whole (S : List (Bid double)) :
    ∃ r, selectionSort S = some r ∧ r.Perm S :=
  selectionSortOuter_perm _ _ S 0 rfl (le_refl _) rfl

/-- With two elements the inner loop of `selectionSort` never runs, so the vector
is returned as it was. -/
theorem selectionSort_pair (b1 b2 : Bid double) : selectionSort [b1, b2] = some [b1, b2] := by
  have hi : selectionSortInner [b1, b2] (([b1, b2] : List (Bid double)).length : Int)
      (0 + 1) 0 = some 0 := selectionSortInner_done (by simp)
  rw [selectionSort, selectionSortOuter_keep (by simp) hi]
  exact selectionSortOuter_done (by simp)

/-- `partition` on two elements in descending order swaps them and splits at 0. -/
theorem partition_pair (b1 b2 : Bid double) (h : b2.title < b1.title) :
    partition [b1, b2] 0 1 = some ([b2, b1], 0) := by
  have hs : swap [b1, b2] 0 1 = some [b2, b1] := by simp [swap, read]
  have hn : ¬ b1.title < b2.title := not_lt.mpr (le_of_lt h)
  rw [partition_eq (m := 0) (b := b1) (by decide) (by simp [read]),
    partitionLoop_step 0 1
      (by simp [advanceLow_eval, read])
      (by simp [retreatHigh_eval, read, hn]) (by decide) hs]
  exact partitionLoop_done 1 0
    (by simp [advanceLow_eval, read])
    (by simp [retreatHigh_eval, read, hn]) (by decide)

/-! ## `loadBids`, the model of `atof`, and further evaluations -/

theorem loadBidsLoop_eq (atof : String → double) (file : List (List String))
    (hrows : ∀ row ∈ file, 9 ≤ row.length) (n : Nat) :
    ∀ (i : Nat) (bids : List (Bid double)), file.length - i = n →
      loadBidsLoop atof file i bids = bids ++ (file.drop i).map (rowToBid atof) := by
  induction n using Nat.strong_induction_on with
  | _ n ih =>
    intro i bids hn
    rw [loadBidsLoop]
    by_cases h : i < file.length
    · rw [dif_pos h]
      have hlen : 9 ≤ file[i].length := hrows _ (List.getElem_mem h)
      have e : ∀ k, k < 9 → file[i][k]? = some (file[i].getD k "") := by
        intro k hk
        rw [List.getD_eq_getElem?_getD, List.getElem?_eq_getElem (by omega)]
        rfl
      rw [e 1 (by omega), e 0 (by omega), e 8 (by omega), e 4 (by omega)]
      simp only
      rw [ih (file.length - (i + 1)) (by omega) (i + 1) _ rfl, List.drop_eq_getElem_cons h,
        List.map_cons, List.append_assoc]
      rfl
    · rw [dif_neg h, List.drop_eq_nil_of_le (by omega)]
      simp

theorem atof_of_getLast {s : String} {p : List Char}
    (h : (numericPrefixes s).getLast? = some p) : atof s = decimalValue p := by
  rw [atof, h]

theorem atof_of_no_numeral {s : String} (h : numericPrefixes s = []) : atof s = 0 := by
  rw [atof, h]
  rfl

theorem decimalValue_one : decimalValue ['1'] = 1 := by
  have h1 : digitsValue (List.takeWhile Char.isDigit (stripSign ['1'])) = 1 := by decide
  have h2 : digitsValue (List.dropWhile Char.isDigit (stripSign ['1'])).tail = 0 := by decide
  have h3 : (List.dropWhile Char.isDigit (stripSign ['1'])).tail.length = 0 := by decide
  have h4 : ¬ (['1'] : List Char).head? = some '-' := by decide
  rw [decimalValue]
  simp only [h1, h2, h3, if_neg h4]
  norm_num

/-- The sort branches of the menu evaluate `ticks - clock() - ticks` to minus the
second clock reading, discard it, and print the clock reading taken before the
sort. -/
theorem sortBranch_reports_start_reading (clockBefore clockAfter : Int) :
    (sortBranchTicks clockBefore clockAfter).1 = -clockAfter ∧
      (sortBranchTicks clockBefore clockAfter).2 = clockBefore := by
  simp only [sortBranchTicks]
  constructor
  · omega
  · trivial

/-- The load branch of the menu assigns the difference of the two clock readings
and prints it: the elapsed time. -/
theorem loadBranch_reports_elapsed (clockBefore clockAfter : Int) :
    loadBranchTicks clockBefore clockAfter = clockAfter - clockBefore := rfl

/-- `partition` on two elements of which the first is not below the second swaps
them and splits at 0. -/
theorem partition_pair_of_not_lt (b1 b2 : Bid double) (hn : ¬ b1.title < b2.title) :
    partition [b1, b2] 0 1 = some ([b2, b1], 0) := by
  have hs : swap [b1, b2] 0 1 = some [b2, b1] := by simp [swap, read]
  rw [partition_eq (m := 0) (b := b1) (by decide) (by simp [read]),
    partitionLoop_step 0 1
      (by simp [advanceLow_eval, read])
      (by simp [retreatHigh_eval, read, hn]) (by decide) hs]
  exact partitionLoop_done 1 0
    (by simp [advanceLow_eval, read])
    (by simp [retreatHigh_eval, read, hn]) (by decide)

/-! ## The records of a range -/

theorem read_slice (l : List (Bid double)) (lo hi : Int) (h0 : 0 ≤ lo) (k : Nat) :
    (slice l lo hi)[k]? = if lo + k ≤ hi then read l (lo + k) else none := by
  have e : lo + (k : Int) = ((lo.toNat + k : Nat) : Int) := by omega
  unfold slice
  rw [List.getElem?_take, List.getElem?_drop, e, read_natCast]
  by_cases h : (k : Int) + lo ≤ hi
  · rw [if_pos (by omega), if_pos (by omega)]
  · rw [if_neg (by omega), if_neg (by omega)]

/-- A permutation of the vector that leaves every index outside `[lo, hi]` as it
was permutes the records of `[lo, hi]` among themselves. -/
theorem slice_perm {r bids : List (Bid double)} {lo hi : Int} (hperm : r.Perm bids)
    (hout : sameOutside bids r lo hi) (h0 : 0 ≤ lo) (hle : lo ≤ hi + 1) :
    (slice r lo hi).Perm (slice bids lo hi) := by
  have htake : r.take lo.toNat = bids.take lo.toNat := by
    apply List.ext_getElem?
    intro i
    rw [List.getElem?_take, List.getElem?_take]
    by_cases h : i < lo.toNat
    · rw [if_pos h, if_pos h, ← read_natCast, ← read_natCast]
      exact hout i (Or.inl (by omega))
    · rw [if_neg h, if_neg h]
  have hdrop : (r.drop lo.toNat).drop (hi - lo + 1).toNat =
      (bids.drop lo.toNat).drop (hi - lo + 1).toNat := by
    apply List.ext_getElem?
    intro i
    rw [List.getElem?_drop, List.getElem?_drop, List.getElem?_drop, List.getElem?_drop,
      ← read_natCast, ← read_natCast]
    exact hout _ (Or.inr (by omega))
  have e1 : r = r.take lo.toNat ++
      (slice r lo hi ++ (r.drop lo.toNat).drop (hi - lo + 1).toNat) := by
    unfold slice
    rw [List.take_append_drop, List.take_append_drop]
  have e2 : bids = bids.take lo.toNat ++
      (slice bids lo hi ++ (bids.drop lo.toNat).drop (hi - lo + 1).toNat) := by
    unfold slice
    rw [List.take_append_drop, List.take_append_drop]
  rw [e1, e2, htake, hdrop] at hperm
  exact (List.perm_append_right_iff _).mp ((List.perm_append_left_iff _).mp hperm)

/-- Ascending titles over `[lo, hi]`, stated on the adjacent records of the range. -/
theorem chain_slice_of_sortedOn {r : List (Bid double)} {lo hi : Int} (h0 : 0 ≤ lo)
    (h : sortedOn r lo hi) : List.Chain' (fun a b => a.title ≤ b.title) (slice r lo hi) := by
  rw [List.chain'_iff_get]
  intro i hi1
  have h1 : (slice r lo hi)[i]? = some ((slice r lo hi).get ⟨i, by omega⟩) :=
    List.getElem?_eq_getElem _
  have h2 : (slice r lo hi)[i + 1]? = some ((slice r lo hi).get ⟨i + 1, by omega⟩) :=
    List.getElem?_eq_getElem _
  rw [read_slice r lo hi h0] at h1 h2
  by_cases hc : lo + ((i + 1 : Nat) : Int) ≤ hi
  · rw [if_pos (by omega)] at h1
    rw [if_pos hc] at h2
    exact h _ _ (by omega) (by push_cast; omega) hc _ _ h1 h2
  · rw [if_neg hc] at h2
    cases h2

/-! ## `selectionSort` and the last element -/

theorem read_append_left (b l : List (Bid double)) (i : Int) (h : i < b.length) :
    read (b ++ l) i = read b i := by
  unfold read
  by_cases h0 : 0 ≤ i
  · rw [if_pos h0, if_pos h0, List.getElem?_append_left (by omega)]
  · rw [if_neg h0, if_neg h0]

theorem swap_append {b b1 : List (Bid double)} (l : List (Bid double)) {i j : Int}
    (h : swap b i j = some b1) : swap (b ++ l) i j = some (b1 ++ l) := by
  obtain ⟨hi, hj⟩ := swap_bounds h
  unfold swap at h ⊢
  rw [read_append_left b l i hi.2, read_append_left b l j hj.2]
  split at h
  · rename_i x y hx hy
    cases h
    rw [List.set_append_left _ _ (by omega), List.set_append_left _ _ (by simp; omega)]
  · cases h

/-- The inner loop with bound `size_t` never reads index `size_t - 1`: records
appended from that index on do not change its result. -/
theorem selectionSortInner_append (b l : List (Bid double)) (size_t : Int)
    (hs : size_t ≤ (b.length : Int) + 1) (n : Nat) :
    ∀ j min : Int, (size_t - 1 - j).toNat = n → min < b.length →
      selectionSortInner (b ++ l) size_t j min = selectionSortInner b size_t j min := by
  induction n using Nat.strong_induction_on with
  | _ n ih =>
    intro j min hn hm
    rw [selectionSortInner]
    conv_rhs => rw [selectionSortInner]
    by_cases hlt : j < size_t - 1
    · rw [if_pos hlt, if_pos hlt, read_append_left b l j (by omega), read_append_left b l min hm,
        ih (size_t - 1 - (j + 1)).toNat (by omega) (j + 1) j rfl (by omega),
        ih (size_t - 1 - (j + 1)).toNat (by omega) (j + 1) min rfl hm]
    · rw [if_neg hlt, if_neg hlt]

/-- The inner loop with bound `size_t` returns the index of a smallest title among
`min` and the indices of `[j, size_t - 2]`. -/
theorem selectionSortInner_min (b : List (Bid double)) (size_t : Int)
    (hs : size_t ≤ (b.length : Int) + 1) (n : Nat) :
    ∀ j min : Int, (size_t - 1 - j).toNat = n → 0 ≤ j → 0 ≤ min → min < b.length →
      ∃ m bm, selectionSortInner b size_t j min = some m ∧ read b m = some bm ∧
        (m = min ∨ (j ≤ m ∧ m < size_t - 1)) ∧
        (∀ b0, read b min = some b0 → bm.title ≤ b0.title) ∧
        ∀ k, j ≤ k → k < size_t - 1 → ∀ bk, read b k = some bk → bm.title ≤ bk.title := by
  induction n using Nat.strong_induction_on with
  | _ n ih =>
    intro j min hn hj hm0 hm1
    obtain ⟨b0, hb0⟩ := read_of_bounds b min hm0 hm1
    by_cases hlt : j < size_t - 1
    · obtain ⟨bj, hbj⟩ := read_of_bounds b j hj (by omega)
      rw [selectionSortInner_step bj b0 hlt hbj hb0]
      by_cases hc : bj.title < b0.title
      · rw [if_pos hc]
        obtain ⟨m, bm, h1, h2, h3, h4, h5⟩ :=
          ih (size_t - 1 - (j + 1)).toNat (by omega) (j + 1) j rfl (by omega) hj (by omega)
        refine ⟨m, bm, h1, h2, by omega, ?_, ?_⟩
        · intro c hc0
          have e : c = b0 := Option.some.inj (hc0.symm.trans hb0)
          rw [e]
          exact le_trans (h4 bj hbj) (le_of_lt hc)
        · intro k hk1 hk2 bk hbk
          by_cases e : k = j
          · subst e
            exact h4 bk hbk
          · exact h5 k (by omega) hk2 bk hbk
      · rw [if_neg hc]
        obtain ⟨m, bm, h1, h2, h3, h4, h5⟩ :=
          ih (size_t - 1 - (j + 1)).toNat (by omega) (j + 1) min rfl (by omega) hm0 hm1
        refine ⟨m, bm, h1, h2, by omega, h4, ?_⟩
        intro k hk1 hk2 bk hbk
        by_cases e : k = j
        · subst e
          have e2 : bk = bj := Option.some.inj (hbk.symm.trans hbj)
          rw [e2]
          exact le_trans (h4 b0 hb0) (not_lt.mp hc)
        · exact h5 k (by omega) hk2 bk hbk
    · refine ⟨min, b0, selectionSortInner_done hlt, hb0, Or.inl rfl, ?_, fun k h1 h2 => by omega⟩
      intro c hc0
      have e : c = b0 := Option.some.inj (hc0.symm.trans hb0)
      rw [e]

/-- The outer loop on a vector `b ++ [x]`: it sorts `b` and leaves `x` in place,
and what it makes of `b` does not depend on `x`. -/
theorem selectionSortOuter_append (n : Nat) :
    ∀ (b : List (Bid double)) (pos : Int), ((b.length : Int) - pos).toNat = n → 0 ≤ pos →
      sortedOn b 0 (pos - 1) →
      (∀ i j, 0 ≤ i → i < pos → pos ≤ j → ∀ a c, read b i = some a → read b j = some c →
        a.title ≤ c.title) →
      ∃ r : List (Bid double), r.length = b.length ∧ r.Perm b ∧
        sortedOn r 0 ((b.length : Int) - 1) ∧
        ∀ x, selectionSortOuter (b ++ [x]) ((b.length : Int) + 1) pos = some (r ++ [x]) := by
  induction n using Nat.strong_induction_on with
  | _ n ih =>
    intro b pos hn hp hsorted hcross
    by_cases hlt : pos < (b.length : Int) + 1 - 1
    · obtain ⟨m, bm, hm, hbm, hmr, hmin0, hmin⟩ :=
        selectionSortInner_min b ((b.length : Int) + 1) (le_refl _) _ (pos + 1) pos rfl
          (by omega) hp (by omega)
      obtain ⟨bp, hbp⟩ := read_of_bounds b pos hp (by omega)
      have hmb := read_bounds hbm
      have hinner : ∀ x, selectionSortInner (b ++ [x]) (((b ++ [x]).length : Nat) : Int)
          (pos + 1) pos = some m := by
        intro x
        rw [show (((b ++ [x]).length : Nat) : Int) = (b.length : Int) + 1 from by simp,
          selectionSortInner_append b [x] _ (le_refl _) _ (pos + 1) pos rfl (by omega)]
        exact hm
      by_cases hne : m = pos
      · subst hne
        obtain ⟨r, hr1, hr2, hr3, hr4⟩ :=
          ih ((b.length : Int) - (m + 1)).toNat (by omega) b (m + 1) rfl (by omega)
            (by
              intro i j hi hij hj a c ha hc
              by_cases e : j = m
              · subst e
                by_cases e2 : i = j
                · subst e2
                  have e3 : a = c := Option.some.inj (ha.symm.trans hc)
                  rw [e3]
                · exact hcross i j hi (by omega) (le_refl _) a c ha hc
              · exact hsorted i j hi hij (by omega) a c ha hc)
            (by
              intro i j hi hij hj a c ha hc
              by_cases e : i = m
              · subst e
                have e3 : a = bm := Option.some.inj (ha.symm.trans hbm)
                rw [e3]
                exact hmin j hj (by have := read_bounds hc; omega) c hc
              · exact hcross i j hi (by omega) (by omega) a c ha hc)
        refine ⟨r, hr1, hr2, hr3, fun x => ?_⟩
        rw [selectionSortOuter_keep hlt (hinner x)]
        exact hr4 x
      · obtain ⟨b1, hsw⟩ := swap_of_bounds b pos m hp (by omega) hmb.1 hmb.2
        have hlen := swap_length hsw
        have hrd := read_swap hsw
        have hmp : pos < m := by omega
        have hr_pos : read b1 pos = some bm := by
          rw [hrd, if_neg (by omega), if_pos rfl, hbm]
        have hr_lt : ∀ i, i < pos → read b1 i = read b i := by
          intro i hi
          rw [hrd, if_neg (by omega), if_neg (by omega)]
        have hr_ge : ∀ j, pos < j → ∀ c, read b1 j = some c →
            ∃ k, pos ≤ k ∧ read b k = some c := by
          intro j hj c hc
          rw [hrd] at hc
          by_cases e : j = m
          · rw [if_pos e] at hc
            exact ⟨pos, le_refl _, hc⟩
          · rw [if_neg e, if_neg (by omega)] at hc
            exact ⟨j, by omega, hc⟩
        have hbm_le : ∀ k, pos ≤ k → ∀ c, read b k = some c → bm.title ≤ c.title := by
          intro k hk c hc
          by_cases e : k = pos
          · subst e
            exact hmin0 c hc
          · exact hmin k (by omega) (by have := read_bounds hc; omega) c hc
        obtain ⟨r, hr1, hr2, hr3, hr4⟩ :=
          ih ((b1.length : Int) - (pos + 1)).toNat (by omega) b1 (pos + 1) rfl (by omega)
            (by
              intro i j hi hij hj a c ha hc
              by_cases e : j = pos
              · subst e
                have e3 : c = bm := Option.some.inj (hc.symm.trans hr_pos)
                rw [e3]
                by_cases e2 : i = j
                · subst e2
                  have e4 : a = bm := Option.some.inj (ha.symm.trans hr_pos)
                  rw [e4]
                · rw [hr_lt i (by omega)] at ha
                  exact hcross i m hi (by omega) (by omega) a bm ha hbm
              · rw [hr_lt i (by omega)] at ha
                rw [hr_lt j (by omega)] at hc
                exact hsorted i j hi hij (by omega) a c ha hc)
            (by
              intro i j hi hij hj a c ha hc
              obtain ⟨k, hk1, hk2⟩ := hr_ge j (by omega) c hc
              by_cases e : i = pos
              · subst e
                have e3 : a = bm := Option.some.inj (ha.symm.trans hr_pos)
                rw [e3]
                exact hbm_le k hk1 c hk2
              · rw [hr_lt i (by omega)] at ha
                exact hcross i k hi (by omega) hk1 a c ha hk2)
        refine ⟨r, hr1.trans hlen, hr2.trans (swap_perm hsw), by rw [← hlen]; exact hr3,
          fun x => ?_⟩
        rw [selectionSortOuter_swap hlt (hinner x) hne (swap_append [x] hsw), ← hlen]
        exact hr4 x
    · refine ⟨b, rfl, List.Perm.refl _, ?_, fun x => selectionSortOuter_done hlt⟩
      intro i j hi hij hj a c ha hc
      exact hsorted i j hi hij (by omega) a c ha hc

/-! ## The indices `partition` accesses

The functions below are `partition` and its loops again, with one addition: they
return the list of the indices at which the vector was read or swapped, in the
order of the accesses. -/

/-- The low scan of `partition`, with the indices it reads. -/
def advanceLowTrace (bids : List (Bid double)) (pivot : String) (low : Int) :
    Option (Int × List Int) :=
  match h : read bids low with
  | none => none
  | some b =>
    if b.title < pivot then
      match advanceLowTrace bids pivot (low + 1) with
      | none => none
      | some (r, t) => some (r, low :: t)
    else some (low, [low])
termination_by ((bids.length : Int) - low).toNat
decreasing_by
  have := read_bounds h
  omega

/-- The high scan of `partition`, with the indices it reads. -/
def retreatHighTrace (bids : List (Bid double)) (pivot : String) (high : Int) :
    Option (Int × List Int) :=
  match h : read bids high with
  | none => none
  | some b =>
    if pivot < b.title then
      match retreatHighTrace bids pivot (high - 1) with
      | none => none
      | some (r, t) => some (r, high :: t)
    else some (high, [high])
termination_by (high + 1).toNat
decreasing_by
  have := read_bounds h
  omega

/-- Forgetting the trace of the low scan gives the low scan, and the indices read
are those from `low` to the index where the scan stops. -/
theorem advanceLowTrace_spec (bids : List (Bid double)) (pivot : String) (n : Nat) :
    ∀ low : Int, ((bids.length : Int) - low).toNat = n →
      (advanceLowTrace bids pivot low).map Prod.fst = advanceLow bids pivot low ∧
        ∀ r t, advanceLowTrace bids pivot low = some (r, t) → ∀ i ∈ t, low ≤ i ∧ i ≤ r := by
  induction n using Nat.strong_induction_on with
  | _ n ih =>
    intro low hn
    rw [advanceLowTrace, advanceLow]
    split
    · exact ⟨rfl, fun r t h => by cases h⟩
    · rename_i b hb
      have hbd := read_bounds hb
      obtain ⟨ih1, ih2⟩ := ih ((bids.length : Int) - (low + 1)).toNat (by omega) (low + 1) rfl
      by_cases hlt : b.title < pivot
      · rw [if_pos hlt, if_pos hlt, ← ih1]
        cases hrec : advanceLowTrace bids pivot (low + 1) with
        | none =>
          exact ⟨rfl, fun r t h => by cases h⟩
        | some rt =>
          obtain ⟨r1, t1⟩ := rt
          refine ⟨rfl, ?_⟩
          intro r t h
          cases h
          intro i hi
          rcases List.mem_cons.mp hi with h1 | h1
          · subst h1
            have := ih2 r1 t1 hrec
            have hr := advanceLow_sound (show advanceLow bids pivot (i + 1) = some r1 by
              rw [← ih1, hrec]
              rfl)
            omega
          · have := ih2 r1 t1 hrec i h1
            omega
      · rw [if_neg hlt, if_neg hlt]
        refine ⟨rfl, ?_⟩
        intro r t h
        cases h
        intro i hi
        rw [List.mem_singleton] at hi
        omega

/-- Forgetting the trace of the high scan gives the high scan, and the indices read
are those from `high` down to the index where the scan stops. -/
theorem retreatHighTrace_spec (bids : List (Bid double)) (pivot : String) (n : Nat) :
    ∀ high : Int, (high + 1).toNat = n →
      (retreatHighTrace bids pivot high).map Prod.fst = retreatHigh bids pivot high ∧
        ∀ r t, retreatHighTrace bids pivot high = some (r, t) → ∀ i ∈ t, r ≤ i ∧ i ≤ high := by
  induction n using Nat.strong_induction_on with
  | _ n ih =>
    intro high hn
    rw [retreatHighTrace, retreatHigh]
    split
    · exact ⟨rfl, fun r t h => by cases h⟩
    · rename_i b hb
      have hbd := read_bounds hb
      obtain ⟨ih1, ih2⟩ := ih (high - 1 + 1).toNat (by omega) (high - 1) rfl
      by_cases hlt : pivot < b.title
      · rw [if_pos hlt, if_pos hlt, ← ih1]
        cases hrec : retreatHighTrace bids pivot (high - 1) with
        | none =>
          exact ⟨rfl, fun r t h => by cases h⟩
        | some rt =>
          obtain ⟨r1, t1⟩ := rt
          refine ⟨rfl, ?_⟩
          intro r t h
          cases h
          intro i hi
          rcases List.mem_cons.mp hi with h1 | h1
          · subst h1
            have hr := retreatHigh_sound (show retreatHigh bids pivot (i - 1) = some r1 by
              rw [← ih1, hrec]
              rfl)
            omega
          · have := ih2 r1 t1 hrec i h1
            omega
      · rw [if_neg hlt, if_neg hlt]
        refine ⟨rfl, ?_⟩
        intro r t h
        cases h
        intro i hi
        rw [List.mem_singleton] at hi
        omega

theorem advanceLow_of_trace {bids : List (Bid double)} {pivot : String} {low r : Int}
    {t : List Int} (h : advanceLowTrace bids pivot low = some (r, t)) :
    advanceLow bids pivot low = some r := by
  rw [← (advanceLowTrace_spec bids pivot _ low rfl).1, h]
  rfl

theorem retreatHigh_of_trace {bids : List (Bid double)} {pivot : String} {high r : Int}
    {t : List Int} (h : retreatHighTrace bids pivot high = some (r, t)) :
    retreatHigh bids pivot high = some r := by
  rw [← (retreatHighTrace_spec bids pivot _ high rfl).1, h]
  rfl

/-- The outer loop of `partition`, with the indices it accesses: those of the two
scans, then the two swapped positions, then those of the later rounds. -/
def partitionLoopTrace (bids : List (Bid double)) (pivot : String) (low high : Int) :
    Option (List (Bid double) × Int × List Int) :=
  match hl : advanceLowTrace bids pivot low with
  | none => none
  | some (low1, t1) =>
    match hh : retreatHighTrace bids pivot high with
    | none => none
    | some (high1, t2) =>
      if low1 ≥ high1 then some (bids, high1, t1 ++ t2)
      else
        match swap bids low1 high1 with
        | none => none
        | some bids1 =>
          match partitionLoopTrace bids1 pivot (low1 + 1) (high1 - 1) with
          | none => none
          | some (bids2, p, t3) => some (bids2, p, t1 ++ t2 ++ [low1, high1] ++ t3)
termination_by (high - low).toNat
decreasing_by
  have h1 := (advanceLow_sound (advanceLow_of_trace hl)).1
  have h2 := (retreatHigh_sound (retreatHigh_of_trace hh)).1
  omega

/-- The function `partition`, with the indices it accesses: the middle index of the
pivot first, then those of the loop. -/
def partitionTrace (bids : List (Bid double)) (begin end_ : Int) :
    Option (List (Bid double) × Int × List Int) :=
  let low := begin
  let high := end_
  let middlePoint := low + (high - low).tdiv 2
  match read bids middlePoint with
  | none => none
  | some b =>
    match partitionLoopTrace bids b.title low high with
    | none => none
    | some (bids1, p, t) => some (bids1, p, middlePoint :: t)

theorem partitionLoopTrace_eq (bids : List (Bid double)) (pivot : String) (low high : Int) :
    partitionLoopTrace bids pivot low high =
      (advanceLowTrace bids pivot low).bind fun a =>
        (retreatHighTrace bids pivot high).bind fun c =>
          if a.1 ≥ c.1 then some (bids, c.1, a.2 ++ c.2)
          else (swap bids a.1 c.1).bind fun bids1 =>
            (partitionLoopTrace bids1 pivot (a.1 + 1) (c.1 - 1)).map fun r =>
              (r.1, r.2.1, a.2 ++ c.2 ++ [a.1, c.1] ++ r.2.2) := by
  rw [partitionLoopTrace]
  split
  · rename_i h
    rw [h]
    rfl
  · rename_i l1 t1 hl
    rw [hl]
    simp only [Option.some_bind]
    split
    · rename_i h
      rw [h]
      rfl
    · rename_i h1 t2 hh
      rw [hh]
      simp only [Option.some_bind]
      split
      · rfl
      · split
        · rename_i h
          rw [h]
          rfl
        · rename_i b1 hs
          rw [hs]
          simp only [Option.some_bind]
          split
          · rename_i h
            rw [h]
            rfl
          · rename_i b2 p t3 h
            rw [h]
            rfl

/-- Forgetting the trace of the traced loop gives the loop of `partition`. -/
theorem partitionLoopTrace_erase (pivot : String) (n : Nat) :
    ∀ (bids : List (Bid double)) (low high : Int), (high - low).toNat = n →
      (partitionLoopTrace bids pivot low high).map (fun r => (r.1, r.2.1)) =
        partitionLoop bids pivot low high := by
  induction n using Nat.strong_induction_on with
  | _ n ih =>
    intro bids low high hn
    rw [partitionLoopTrace_eq, partitionLoop_eq, ← (advanceLowTrace_spec bids pivot _ low rfl).1,
      ← (retreatHighTrace_spec bids pivot _ high rfl).1]
    cases hl : advanceLowTrace bids pivot low with
    | none => rfl
    | some a =>
      obtain ⟨l1, t1⟩ := a
      cases hh : retreatHighTrace bids pivot high with
      | none => rfl
      | some c =>
        obtain ⟨h1, t2⟩ := c
        simp only [Option.some_bind, Option.map_some']
        by_cases hc : l1 ≥ h1
        · rw [if_pos hc, if_pos hc]
          rfl
        · rw [if_neg hc, if_neg hc]
          cases hs : swap bids l1 h1 with
          | none => rfl
          | some bids1 =>
            have h1' := (advanceLow_sound (advanceLow_of_trace hl)).1
            have h2' := (retreatHigh_sound (retreatHigh_of_trace hh)).1
            simp only [Option.some_bind]
            rw [← ih (h1 - 1 - (l1 + 1)).toNat (by omega) bids1 (l1 + 1) (h1 - 1) rfl,
              Option.map_map]
            rfl

/-- Forgetting the trace of `partitionTrace` gives `partition`. -/
theorem partitionTrace_erase (bids : List (Bid double)) (begin end_ : Int) :
    (partitionTrace bids begin end_).map (fun r => (r.1, r.2.1)) = partition bids begin end_ := by
  simp only [partitionTrace, partition]
  cases read bids (begin + (end_ - begin).tdiv 2) with
  | none => rfl
  | some b =>
    simp only
    rw [← partitionLoopTrace_erase b.title _ bids begin end_ rfl]
    cases partitionLoopTrace bids b.title begin end_ with
    | none => rfl
    | some r => rfl

/-- Every index the traced loop accesses lies in `[begin, end]`, as long as some
title at or after `low` is not below the pivot and some title at or before `high`
is not above it. -/
theorem partitionLoopTrace_bounds (pivot : String) (begin end_ : Int) (n : Nat) :
    ∀ (bids : List (Bid double)) (low high : Int), (high - low).toNat = n →
      0 ≤ begin → end_ < bids.length → begin ≤ low → high ≤ end_ →
      (∃ kl b, low ≤ kl ∧ kl ≤ end_ ∧ read bids kl = some b ∧ ¬ b.title < pivot) →
      (∃ kh b, begin ≤ kh ∧ kh ≤ high ∧ read bids kh = some b ∧ ¬ pivot < b.title) →
      ∀ bids1 p t, partitionLoopTrace bids pivot low high = some (bids1, p, t) →
        ∀ i ∈ t, begin ≤ i ∧ i ≤ end_ := by
  induction n using Nat.strong_induction_on with
  | _ n ih =>
    intro bids low high hn hb0 he1 hbl hhe hS1 hS2 bids1 p t h
    obtain ⟨kl, bl, hkl1, hkl2, hkl4, hkl5⟩ := hS1
    obtain ⟨kh, bh, hkh1, hkh2, hkh3, hkh4⟩ := hS2
    rw [partitionLoopTrace_eq] at h
    cases hl : advanceLowTrace bids pivot low with
    | none => simp [hl] at h
    | some a =>
      obtain ⟨l1, t1⟩ := a
      cases hh : retreatHighTrace bids pivot high with
      | none => simp [hl, hh] at h
      | some c =>
        obtain ⟨h1, t2⟩ := c
        rw [hl, hh] at h
        simp only [Option.some_bind] at h
        have hl' := advanceLow_of_trace hl
        have hh' := retreatHigh_of_trace hh
        obtain ⟨r1, hr1, hr1k⟩ := advanceLow_stops hkl4 hkl5 low (by omega) hkl1
        obtain ⟨r2, hr2, hr2k⟩ := retreatHigh_stops hkh3 hkh4 high (by omega) hkh2
        have e1 : r1 = l1 := Option.some.inj (hr1.symm.trans hl')
        have e2 : r2 = h1 := Option.some.inj (hr2.symm.trans hh')
        subst e1 e2
        obtain ⟨hl2, ⟨bl1, hbl1, hbl2⟩, -⟩ := advanceLow_sound hl'
        obtain ⟨hh2, ⟨bh1, hbh1, hbh2⟩, -⟩ := retreatHigh_sound hh'
        have ht1 := (advanceLowTrace_spec bids pivot _ low rfl).2 r1 t1 hl
        have ht2 := (retreatHighTrace_spec bids pivot _ high rfl).2 r2 t2 hh
        have hin1 : ∀ i ∈ t1, begin ≤ i ∧ i ≤ end_ := fun i hi => by
          have := ht1 i hi
          omega
        have hin2 : ∀ i ∈ t2, begin ≤ i ∧ i ≤ end_ := fun i hi => by
          have := ht2 i hi
          omega
        by_cases hc : r1 ≥ r2
        · rw [if_pos hc] at h
          cases h
          intro i hi
          rcases List.mem_append.mp hi with hi | hi
          · exact hin1 i hi
          · exact hin2 i hi
        · rw [if_neg hc] at h
          cases hs : swap bids r1 r2 with
          | none => simp [hs] at h
          | some b1 =>
            rw [hs] at h
            simp only [Option.some_bind] at h
            cases hrec : partitionLoopTrace b1 pivot (r1 + 1) (r2 - 1) with
            | none => simp [hrec] at h
            | some res =>
              obtain ⟨b2, p2, t3⟩ := res
              rw [hrec] at h
              cases h
              have hrd := read_swap hs
              have hlen := swap_length hs
              have hin3 := ih (r2 - 1 - (r1 + 1)).toNat (by omega) b1 (r1 + 1) (r2 - 1) rfl hb0
                (by omega) (by omega) (by omega)
                ⟨r2, bl1, by omega, by omega, by rw [hrd, if_pos rfl, hbl1], hbl2⟩
                ⟨r1, bh1, by omega, by omega,
                  by rw [hrd, if_neg (by omega), if_pos rfl, hbh1], hbh2⟩
                b2 p2 t3 hrec
              intro i hi
              rcases List.mem_append.mp hi with hi | hi
              · rcases List.mem_append.mp hi with hi | hi
                · rcases List.mem_append.mp hi with hi | hi
                  · exact hin1 i hi
                  · exact hin2 i hi
                · simp only [List.mem_cons, List.mem_singleton, List.not_mem_nil, or_false] at hi
                  omega
              · exact hin3 i hi

/-- On a range `0 ≤ begin < end < size` the traced `partition` returns what
`partition` returns, and every index it accessed lies in `[begin, end]`. -/
theorem partitionTrace_spec (bids : List (Bid double)) (begin end_ : Int)
    (h0 : 0 ≤ begin) (hlt : begin < end_) (h1 : end_ < bids.length) :
    ∃ bids1 p t, partitionTrace bids begin end_ = some (bids1, p, t) ∧
      partition bids begin end_ = some (bids1, p) ∧ (∀ i ∈ t, begin ≤ i ∧ i ≤ end_) ∧
      begin ≤ p ∧ p < end_ := by
  obtain ⟨pv, bids1, p, hpv, hp, hp1, hp2, -⟩ := partition_spec bids begin end_ h0 hlt h1
  have hm := middlePoint_bounds hlt
  have herase := partitionTrace_erase bids begin end_
  rw [hp] at herase
  cases htr : partitionTrace bids begin end_ with
  | none => simp [htr] at herase
  | some res =>
    obtain ⟨b2, p2, t⟩ := res
    rw [htr] at herase
    cases herase
    refine ⟨b2, p2, t, rfl, hp, ?_, hp1, hp2⟩
    simp only [partitionTrace, hpv] at htr
    cases hloop : partitionLoopTrace bids pv.title begin end_ with
    | none => simp [hloop] at htr
    | some res2 =>
      obtain ⟨b3, p3, t3⟩ := res2
      rw [hloop] at htr
      cases htr
      have hin := partitionLoopTrace_bounds pv.title begin end_ _ bids begin end_ rfl h0 h1
        (le_refl _) (le_refl _) ⟨_, pv, hm.1, le_of_lt hm.2, hpv, lt_irrefl _⟩
        ⟨_, pv, hm.1, le_of_lt hm.2, hpv, lt_irrefl _⟩ b2 p2 t3 hloop
      intro i hi
      rcases List.mem_cons.mp hi with hi | hi
      · omega
      · exact hin i hi

/-! ## The claims -/

/-- Claim C1. For every vector `S`, the call `quickSort(S, 0, len(S) - 1)` returns
and in its result every adjacent pair of records has `title[i] ≤ title[i+1]` in the
lexicographic order of strings. -/
theorem quickSort_sorted (S : List (Bid double)) :
    ∃ r, quickSort S 0 ((S.length : Int) - 1) = some r ∧
      List.Chain' (fun a b => a.title ≤ b.title) r := by
  obtain ⟨r, hr, -, hs⟩ := quickSort_whole S
  exact ⟨r, hr, hs⟩

/-- Claim C2, evaluated on the code. On the two records titled "B", "A" the
function `selectionSort` returns the vector as it was, which is not in ascending
title order: the inner loop bound `j < size_t - 1` never visits the last element. -/
theorem selectionSort_skips_last :
    selectionSort [sampleBid "1" "B", sampleBid "2" "A"] =
        some [sampleBid "1" "B", sampleBid "2" "A"] ∧
      ¬ List.Chain' (fun a b => a.title ≤ b.title) [sampleBid "1" "B", sampleBid "2" "A"] := by
  refine ⟨selectionSort_pair _ _, ?_⟩
  simp +decide [sampleBid]

/-- Claim C3. For every vector `S`, the result of `quickSort(S, 0, len(S) - 1)` is a
permutation of `S` as a list of whole records, hence also of its identifiers. -/
theorem quickSort_permutation (S : List (Bid double)) :
    ∃ r, quickSort S 0 ((S.length : Int) - 1) = some r ∧ r.Perm S ∧
      (r.map Bid.bidId).Perm (S.map Bid.bidId) := by
  obtain ⟨r, hr, hp, -⟩ := quickSort_whole S
  exact ⟨r, hr, hp, hp.map _⟩

/-- Claim C4. For every vector `S`, the result of `selectionSort(S)` is a permutation
of `S` as a list of whole records, hence also of its identifiers. -/
theorem selectionSort_permutation (S : List (Bid double)) :
    ∃ r, selectionSort S = some r ∧ r.Perm S ∧
      (r.map Bid.bidId).Perm (S.map Bid.bidId) := by
  obtain ⟨r, hr, hp⟩ := selectionSort_whole S
  exact ⟨r, hr, hp, hp.map _⟩

/-- Claim C5. On a vector of length 0 or 1 both `selectionSort(S)` and
`quickSort(S, 0, len(S) - 1)` return `S` unchanged. On the empty vector
`quickSort(·, 0, -1)` returns although every element access of the empty vector
is undefined (`read [] i = none`), so it made none. -/
theorem sorts_noop_on_short (S : List (Bid double)) (h : S.length ≤ 1) :
    selectionSort S = some S ∧ quickSort S 0 ((S.length : Int) - 1) = some S ∧
      quickSort ([] : List (Bid double)) 0 (-1) = some [] ∧
      ∀ i : Int, read ([] : List (Bid double)) i = none := by
  refine ⟨selectionSortOuter_done (by omega), quickSort_base (by omega),
    quickSort_base (by decide), fun i => ?_⟩
  simp [read]

/-- Claim C5 at the one-element vector. -/
theorem sorts_noop_on_short_witness :
    [sampleBid "1" "Apple"].length ≤ 1 ∧
      selectionSort [sampleBid "1" "Apple"] = some [sampleBid "1" "Apple"] ∧
      quickSort [sampleBid "1" "Apple"] 0 (([sampleBid "1" "Apple"].length : Int) - 1) =
        some [sampleBid "1" "Apple"] :=
  ⟨by decide, (sorts_noop_on_short [sampleBid "1" "Apple"] (by decide)).1,
    (sorts_noop_on_short [sampleBid "1" "Apple"] (by decide)).2.1⟩

/-- Claim C6. On a vector whose titles are already ascending, `selectionSort(S)`
and `quickSort(S, 0, len(S) - 1)` each return a permutation of `S` whose sequence
of titles is the sequence of titles of `S`. -/
theorem sorts_keep_sorted_titles (S : List (Bid double))
    (h : List.Chain' (fun a b => a.title ≤ b.title) S) :
    (∃ r, selectionSort S = some r ∧ r.Perm S ∧ r.map Bid.title = S.map Bid.title) ∧
      ∃ r, quickSort S 0 ((S.length : Int) - 1) = some r ∧ r.Perm S ∧
        r.map Bid.title = S.map Bid.title := by
  constructor
  · exact ⟨S, selectionSortOuter_sorted S _ rfl (sortedOn_of_chain h) _ 0 rfl (le_refl _),
      List.Perm.refl _, rfl⟩
  · obtain ⟨r, hr, hp, hs⟩ := quickSort_whole S
    exact ⟨r, hr, hp, titles_eq_of_perm_of_chain hp hs h⟩

/-- Claim C6 at a vector with titles "Apple", "Apple", "Banana". -/
theorem sorts_keep_sorted_titles_witness :
    List.Chain' (fun a b => a.title ≤ b.title)
        [sampleBid "1" "Apple", sampleBid "2" "Apple", sampleBid "3" "Banana"] ∧
      ((∃ r, selectionSort [sampleBid "1" "Apple", sampleBid "2" "Apple", sampleBid "3" "Banana"]
            = some r ∧
          r.Perm [sampleBid "1" "Apple", sampleBid "2" "Apple", sampleBid "3" "Banana"] ∧
          r.map Bid.title =
            [sampleBid "1" "Apple", sampleBid "2" "Apple", sampleBid "3" "Banana"].map Bid.title) ∧
        ∃ r, quickSort [sampleBid "1" "Apple", sampleBid "2" "Apple", sampleBid "3" "Banana"] 0
            (([sampleBid "1" "Apple", sampleBid "2" "Apple",
              sampleBid "3" "Banana"].length : Int) - 1) = some r ∧
          r.Perm [sampleBid "1" "Apple", sampleBid "2" "Apple", sampleBid "3" "Banana"] ∧
          r.map Bid.title =
            [sampleBid "1" "Apple", sampleBid "2" "Apple", sampleBid "3" "Banana"].map Bid.title) :=
  ⟨by simp +decide [sampleBid],
    sorts_keep_sorted_titles _ (by simp +decide [sampleBid])⟩

/-- Claim C7. For three records titled "Banana", "Apple", "Cherry" in that order,
`selectionSort` and `quickSort(·, 0, 2)` both return them in the order
"Apple", "Banana", "Cherry". -/
theorem sorts_banana_apple_cherry (b1 b2 b3 : Bid double) (h1 : b1.title = "Banana")
    (h2 : b2.title = "Apple") (h3 : b3.title = "Cherry") :
    selectionSort [b1, b2, b3] = some [b2, b1, b3] ∧
      quickSort [b1, b2, b3] 0 2 = some [b2, b1, b3] := by
  have hs : swap [b1, b2, b3] 0 1 = some [b2, b1, b3] := by simp [swap, read]
  constructor
  · have hi : selectionSortInner [b1, b2, b3] (([b1, b2, b3] : List (Bid double)).length : Int)
        (0 + 1) 0 = some 1 := by
      rw [selectionSortInner_step b2 b1 (by simp) (by simp [read])
        (by simp [read]), if_pos (by rw [h1, h2]; simp +decide)]
      exact selectionSortInner_done (by simp)
    have hi2 : selectionSortInner [b2, b1, b3] (([b2, b1, b3] : List (Bid double)).length : Int)
        (0 + 1 + 1) (0 + 1) = some (0 + 1) := selectionSortInner_done (by simp)
    rw [selectionSort, selectionSortOuter_swap (by simp) hi (by decide) hs,
      selectionSortOuter_keep (by simp) hi2]
    exact selectionSortOuter_done (by simp)
  · have hp : partition [b1, b2, b3] 0 2 = some ([b2, b1, b3], 0) := by
      rw [partition_eq (m := 1) (b := b2) (by decide) (by simp [read]), h2,
        partitionLoop_step 0 1
          (by simp +decide [advanceLow_eval, read, h1])
          (by simp +decide [retreatHigh_eval, read, h2, h3]) (by decide) hs]
      exact partitionLoop_done 1 0
        (by simp +decide [advanceLow_eval, read, h1])
        (by simp +decide [retreatHigh_eval, read, h2]) (by decide)
    have hp2 : partition [b2, b1, b3] 1 2 = some ([b2, b1, b3], 1) := by
      rw [partition_eq (m := 1) (b := b1) (by decide) (by simp [read]), h1]
      exact partitionLoop_done 1 1
        (by simp +decide [advanceLow_eval, read, h1])
        (by simp +decide [retreatHigh_eval, read, h1, h3]) (by decide)
    rw [quickSort_step (by decide) hp, quickSort_base (by decide)]
    simp only [Option.some_bind]
    rw [show (0 : Int) + 1 = 1 from rfl, quickSort_step (by decide) hp2,
      quickSort_base (by decide)]
    simp only [Option.some_bind]
    exact quickSort_base (by decide)

/-- Claim C7 at three sample bids. -/
theorem sorts_banana_apple_cherry_witness :
    (sampleBid "1" "Banana").title = "Banana" ∧ (sampleBid "2" "Apple").title = "Apple" ∧
      (sampleBid "3" "Cherry").title = "Cherry" ∧
      selectionSort [sampleBid "1" "Banana", sampleBid "2" "Apple", sampleBid "3" "Cherry"] =
        some [sampleBid "2" "Apple", sampleBid "1" "Banana", sampleBid "3" "Cherry"] ∧
      quickSort [sampleBid "1" "Banana", sampleBid "2" "Apple", sampleBid "3" "Cherry"] 0 2 =
        some [sampleBid "2" "Apple", sampleBid "1" "Banana", sampleBid "3" "Cherry"] :=
  ⟨rfl, rfl, rfl, sorts_banana_apple_cherry _ _ _ rfl rfl rfl⟩

/-- Claim C8. When every record of the vector has the same title `t`, neither
scan of `partition` ever advances (on the vector or on any permutation of it),
`partition` returns on every range `0 ≤ begin < end < size` with a split index in
`[begin, end)`, and `quickSort` over the whole vector returns. -/
theorem partition_equal_titles_terminates (bids : List (Bid double)) (t : String)
    (hall : ∀ b ∈ bids, b.title = t) (begin end_ : Int) (h0 : 0 ≤ begin) (hlt : begin < end_)
    (h1 : end_ < bids.length) :
    (∀ bids1 : List (Bid double), bids1.Perm bids → ∀ i : Int, 0 ≤ i → i < bids1.length →
        advanceLow bids1 t i = some i ∧ retreatHigh bids1 t i = some i) ∧
      (∃ bids1 p, partition bids begin end_ = some (bids1, p) ∧ begin ≤ p ∧ p < end_) ∧
      ∃ r, quickSort bids 0 ((bids.length : Int) - 1) = some r := by
  refine ⟨?_, ?_, ?_⟩
  · intro bids1 hperm i hi0 hi1
    obtain ⟨b, hb⟩ := read_of_bounds bids1 i hi0 hi1
    have ht : b.title = t := hall b (hperm.mem_iff.mp (read_mem hb))
    constructor
    · rw [advanceLow_eval, if_pos ⟨hi0, hi1⟩, hb]
      simp [ht]
    · rw [retreatHigh_eval, if_pos ⟨hi0, hi1⟩, hb]
      simp [ht]
  · obtain ⟨pv, bids1, p, -, hp, hp1, hp2, -⟩ := partition_spec bids begin end_ h0 hlt h1
    exact ⟨bids1, p, hp, hp1, hp2⟩
  · obtain ⟨r, hr, -⟩ := quickSort_whole bids
    exact ⟨r, hr⟩

/-- Claim C8 at three bids titled "Same", on the range `[0, 2]`. -/
theorem partition_equal_titles_terminates_witness :
    (∀ b ∈ [sampleBid "1" "Same", sampleBid "2" "Same", sampleBid "3" "Same"],
        b.title = "Same") ∧
      (∃ bids1 p, partition [sampleBid "1" "Same", sampleBid "2" "Same", sampleBid "3" "Same"]
        0 2 = some (bids1, p) ∧ 0 ≤ p ∧ p < 2) ∧
      ∃ r, quickSort [sampleBid "1" "Same", sampleBid "2" "Same", sampleBid "3" "Same"] 0
        (([sampleBid "1" "Same", sampleBid "2" "Same", sampleBid "3" "Same"].length : Int) - 1)
          = some r :=
  ⟨by simp [sampleBid],
    (partition_equal_titles_terminates _ "Same" (by simp [sampleBid]) 0 2 (by decide)
      (by decide) (by decide)).2⟩

/-- Claim C9. For every vector, `quickSort(store, 0, len(store) - 1)` returns; and
whenever `partition` returns on a range with `begin < end`, its split index lies
in `[begin, end)`, so both ranges `[begin, split]` and `[split + 1, end]` that
`quickSort` recurses on are strictly shorter than `[begin, end]`. -/
theorem quickSort_terminates (bids : List (Bid double)) :
    (∃ r, quickSort bids 0 ((bids.length : Int) - 1) = some r) ∧
      ∀ (begin end_ : Int) (bids1 : List (Bid double)) (p : Int), begin < end_ →
        partition bids begin end_ = some (bids1, p) →
        (begin ≤ p ∧ p < end_) ∧ (p - begin).toNat < (end_ - begin).toNat ∧
          (end_ - (p + 1)).toNat < (end_ - begin).toNat := by
  constructor
  · obtain ⟨r, hr, -⟩ := quickSort_whole bids
    exact ⟨r, hr⟩
  · intro begin end_ bids1 p hlt hp
    have := partition_split_bounds hp hlt
    exact ⟨this, by omega, by omega⟩

/-- Claim C9 at the two bids titled "B", "A". -/
theorem quickSort_terminates_witness :
    (0 : Int) < 1 ∧
      partition [sampleBid "1" "B", sampleBid "2" "A"] 0 1 =
        some ([sampleBid "2" "A", sampleBid "1" "B"], 0) ∧
      (∃ r, quickSort [sampleBid "1" "B", sampleBid "2" "A"] 0
        (([sampleBid "1" "B", sampleBid "2" "A"].length : Int) - 1) = some r) ∧
      ((0 : Int) ≤ 0 ∧ (0 : Int) < 1) ∧ ((0 : Int) - 0).toNat < ((1 : Int) - 0).toNat ∧
        ((1 : Int) - (0 + 1)).toNat < ((1 : Int) - 0).toNat :=
  ⟨by decide, partition_pair _ _ (by simp +decide [sampleBid]),
    (quickSort_terminates [sampleBid "1" "B", sampleBid "2" "A"]).1,
    (quickSort_terminates [sampleBid "1" "B", sampleBid "2" "A"]).2 0 1 _ 0 (by decide)
      (partition_pair _ _ (by simp +decide [sampleBid]))⟩

/-- Claim C10. For every string `raw` and character `stripChar`,
`strToDouble(raw, stripChar)` is the numeric conversion `atof` of the string
obtained from `raw` by deleting every occurrence of `stripChar`, the other
characters kept in order; the converted string contains no `stripChar`. -/
theorem strToDouble_strips_every_occurrence (atof : String → double) (raw : String)
    (stripChar : Char) :
    strToDouble atof raw stripChar = atof (deleteAll raw stripChar) ∧
      (deleteAll raw stripChar).data = raw.data.filter (fun c => c ≠ stripChar) ∧
      stripChar ∉ (deleteAll raw stripChar).data := by
  refine ⟨strToDouble_eq atof raw stripChar, rfl, ?_⟩
  simp [deleteAll]

/-- Claim C11. With `atof` the leading-numeric-prefix parse, `strToDouble("$1,234", '$')`
is exactly 1: stripping '$' leaves "1,234", whose only valid numeric prefix is "1",
the comma ending it. -/
theorem strToDouble_dollar_comma :
    strToDouble atof "$1,234" '$' = 1 ∧ deleteAll "$1,234" '$' = "1,234" ∧
      numericPrefixes "1,234" = [['1']] := by
  refine ⟨?_, by decide, by decide⟩
  rw [strToDouble_eq, show deleteAll "$1,234" '$' = "1,234" from by decide,
    atof_of_getLast (p := ['1']) (by decide), decimalValue_one]

/-- Claim C12. With `atof` the leading-numeric-prefix parse, `strToDouble` returns 0
on every input whose stripped form has no valid numeric prefix; it is a total
function, so no error is signalled. In particular `strToDouble("abc", '$')` is 0. -/
theorem strToDouble_zero_without_numeral (raw : String) (stripChar : Char)
    (h : numericPrefixes (deleteAll raw stripChar) = []) :
    strToDouble atof raw stripChar = 0 ∧ strToDouble atof "abc" '$' = 0 := by
  constructor
  · rw [strToDouble_eq, atof_of_no_numeral h]
  · rw [strToDouble_eq, atof_of_no_numeral (by decide)]

/-- Claim C12 at the input "$abc" with '$' stripped. -/
theorem strToDouble_zero_without_numeral_witness :
    numericPrefixes (deleteAll "$abc" '$') = [] ∧ strToDouble atof "$abc" '$' = 0 :=
  ⟨by decide, (strToDouble_zero_without_numeral "$abc" '$' (by decide)).1⟩

/-- Claim C13. For every table whose rows all have at least 9 columns, `loadBids`
yields one record per row, in row order, with title = column 0, identifier =
column 1, fund = column 8 and amount = `strToDouble(column 4, '$')`. -/
theorem loadBids_maps_rows (atof : String → double) (file : List (List String))
    (hrows : ∀ row ∈ file, 9 ≤ row.length) :
    loadBids atof file = file.map (rowToBid atof) ∧
      (loadBids atof file).length = file.length := by
  have h : loadBids atof file = file.map (rowToBid atof) := by
    rw [loadBids, loadBidsLoop_eq atof file hrows _ 0 [] rfl]
    simp
  exact ⟨h, by rw [h, List.length_map]⟩

/-- Claim C13 at a table of two rows of nine columns. -/
theorem loadBids_maps_rows_witness :
    (∀ row ∈ [["Chair", "98001", "", "", "$12", "", "", "", "General Fund"],
        ["Table", "98002", "", "", "$1,234", "", "", "", "Enterprise"]], 9 ≤ row.length) ∧
      loadBids atof [["Chair", "98001", "", "", "$12", "", "", "", "General Fund"],
          ["Table", "98002", "", "", "$1,234", "", "", "", "Enterprise"]] =
        [{ bidId := "98001", title := "Chair", fund := "General Fund",
            amount := strToDouble atof "$12" '$' },
          { bidId := "98002", title := "Table", fund := "Enterprise",
            amount := strToDouble atof "$1,234" '$' }] :=
  ⟨by decide, (loadBids_maps_rows atof _ (by decide)).1⟩

/-- Claim C14. On a range `0 ≤ begin < end < size`, with `pv` the record at the middle
index `begin + (end - begin) / 2` before the call, `partition` returns a vector and
a split index `p` such that every title at an index in `[begin, p]` is at most
`pv.title` and every title at an index in `[p + 1, end]` is at least `pv.title`. -/
theorem partition_splits_around_pivot (bids : List (Bid double)) (begin end_ : Int)
    (h0 : 0 ≤ begin) (hlt : begin < end_) (h1 : end_ < bids.length) :
    ∃ pv bids1 p, read bids (begin + (end_ - begin).tdiv 2) = some pv ∧
      partition bids begin end_ = some (bids1, p) ∧
      (∀ i, begin ≤ i → i ≤ p → ∀ b, read bids1 i = some b → b.title ≤ pv.title) ∧
      (∀ i, p + 1 ≤ i → i ≤ end_ → ∀ b, read bids1 i = some b → pv.title ≤ b.title) ∧
      (∀ i, begin ≤ i → i ≤ end_ → ∃ b, read bids1 i = some b) := by
  obtain ⟨pv, bids1, p, hpv, hp, -, -, hlen, -, -, -, hle, hge⟩ :=
    partition_spec bids begin end_ h0 hlt h1
  exact ⟨pv, bids1, p, hpv, hp, hle, hge,
    fun i hi1 hi2 => read_of_bounds bids1 i (by omega) (by omega)⟩

/-- Claim C14 at the bids titled "Banana", "Apple", "Cherry" on the range `[0, 2]`. -/
theorem partition_splits_around_pivot_witness :
    ∃ pv bids1 p,
      read [sampleBid "1" "Banana", sampleBid "2" "Apple", sampleBid "3" "Cherry"]
        (0 + ((2 : Int) - 0).tdiv 2) = some pv ∧
      partition [sampleBid "1" "Banana", sampleBid "2" "Apple", sampleBid "3" "Cherry"] 0 2 =
        some (bids1, p) ∧
      (∀ i, 0 ≤ i → i ≤ p → ∀ b, read bids1 i = some b → b.title ≤ pv.title) ∧
      (∀ i, p + 1 ≤ i → i ≤ 2 → ∀ b, read bids1 i = some b → pv.title ≤ b.title) ∧
      (∀ i, (0 : Int) ≤ i → i ≤ 2 → ∃ b, read bids1 i = some b) :=
  partition_splits_around_pivot _ 0 2 (by decide) (by decide) (by decide)

/-- Claim C15. On a range `0 ≤ begin < end < size`, every index at which `partition`
reads or swaps the vector lies in `[begin, end]`, and the split index `p` it
returns satisfies `begin ≤ p < end`. The accesses are those recorded by
`partitionTrace`, which returns what `partition` returns. -/
theorem partition_accesses_in_range (bids : List (Bid double)) (begin end_ : Int)
    (h0 : 0 ≤ begin) (hlt : begin < end_) (h1 : end_ < bids.length) :
    ∃ bids1 p t, partitionTrace bids begin end_ = some (bids1, p, t) ∧
      partition bids begin end_ = some (bids1, p) ∧ (∀ i ∈ t, begin ≤ i ∧ i ≤ end_) ∧
      begin ≤ p ∧ p < end_ :=
  partitionTrace_spec bids begin end_ h0 hlt h1

/-- Claim C15 at four bids, partitioning the range `[1, 3]`. -/
theorem partition_accesses_in_range_witness :
    ∃ bids1 p t,
      partitionTrace [sampleBid "1" "D", sampleBid "2" "C", sampleBid "3" "B", sampleBid "4" "A"]
        1 3 = some (bids1, p, t) ∧
      partition [sampleBid "1" "D", sampleBid "2" "C", sampleBid "3" "B", sampleBid "4" "A"]
        1 3 = some (bids1, p) ∧
      (∀ i ∈ t, (1 : Int) ≤ i ∧ i ≤ 3) ∧ 1 ≤ p ∧ p < 3 :=
  partition_accesses_in_range _ 1 3 (by decide) (by decide) (by decide)

/-- Claim C16. On a range `0 ≤ begin ≤ end < size`, `quickSort(records, begin, end)`
returns; every record at an index outside `[begin, end]` is unchanged, and the
records at the indices of `[begin, end]` are a permutation of those originally
there, in ascending title order. -/
theorem quickSort_range (bids : List (Bid double)) (begin end_ : Int) (h0 : 0 ≤ begin)
    (hle : begin ≤ end_) (h1 : end_ < bids.length) :
    ∃ r, quickSort bids begin end_ = some r ∧ r.length = bids.length ∧
      (∀ i, i < begin ∨ end_ < i → read r i = read bids i) ∧
      (slice r begin end_).Perm (slice bids begin end_) ∧
      List.Chain' (fun a b => a.title ≤ b.title) (slice r begin end_) := by
  obtain ⟨r, hr, hlen, hperm, hout, -, hsort⟩ := quickSort_spec _ bids begin end_ rfl h0 h1
  exact ⟨r, hr, hlen, hout, slice_perm hperm hout h0 (by omega),
    chain_slice_of_sortedOn h0 hsort⟩

/-- Claim C16 at four bids, sorting the range `[1, 2]` only. -/
theorem quickSort_range_witness :
    ∃ r, quickSort [sampleBid "1" "D", sampleBid "2" "C", sampleBid "3" "B", sampleBid "4" "A"]
          1 2 = some r ∧
      r.length =
        [sampleBid "1" "D", sampleBid "2" "C", sampleBid "3" "B", sampleBid "4" "A"].length ∧
      (∀ i, i < 1 ∨ 2 < i → read r i =
        read [sampleBid "1" "D", sampleBid "2" "C", sampleBid "3" "B", sampleBid "4" "A"] i) ∧
      (slice r 1 2).Perm
        (slice [sampleBid "1" "D", sampleBid "2" "C", sampleBid "3" "B", sampleBid "4" "A"]
          1 2) ∧
      List.Chain' (fun a b => a.title ≤ b.title) (slice r 1 2) :=
  quickSort_range _ 1 2 (by decide) (by decide) (by decide)

/-- Claim C17. For every non-empty vector `S`, `selectionSort` leaves the last record
where it is and returns in front of it a permutation of the other records of `S`
in ascending title order; that front part is the same whatever record stands
last, so the last record is never compared against. -/
theorem selectionSort_sorts_all_but_last (S : List (Bid double)) (h : S ≠ []) :
    ∃ r : List (Bid double), selectionSort S = some (r ++ [S.getLast h]) ∧
      r.length = S.length - 1 ∧ r.Perm S.dropLast ∧
      List.Chain' (fun a b => a.title ≤ b.title) r ∧
      ∀ x, selectionSort (S.dropLast ++ [x]) = some (r ++ [x]) := by
  obtain ⟨r, hlen, hperm, hsort, hall⟩ :=
    selectionSortOuter_append _ S.dropLast 0 rfl (le_refl _)
      (fun i j hi hij hj => by omega) (fun i j hi hi2 => by omega)
  have hsel : ∀ x, selectionSort (S.dropLast ++ [x]) = some (r ++ [x]) := by
    intro x
    rw [selectionSort,
      show (((S.dropLast ++ [x]).length : Nat) : Int) = (S.dropLast.length : Int) + 1 from by simp]
    exact hall x
  refine ⟨r, ?_, by rw [hlen, List.length_dropLast], hperm, chain_of_sortedOn ?_, hsel⟩
  · have := hsel (S.getLast h)
    rw [List.dropLast_append_getLast h] at this
    exact this
  · rw [hlen]
    exact hsort

/-- Claim C17 at the bids titled "C", "B", "A": the first two are put in order, the
last stays. -/
theorem selectionSort_sorts_all_but_last_witness :
    [sampleBid "1" "C", sampleBid "2" "B", sampleBid "3" "A"] ≠ [] ∧
      ∃ r : List (Bid Float),
        selectionSort [sampleBid "1" "C", sampleBid "2" "B", sampleBid "3" "A"] =
          some (r ++ [sampleBid "3" "A"]) ∧
        r.length = 2 ∧
        r.Perm [sampleBid "1" "C", sampleBid "2" "B"] ∧
        List.Chain' (fun a b => a.title ≤ b.title) r ∧
        ∀ x, selectionSort ([sampleBid "1" "C", sampleBid "2" "B"] ++ [x]) = some (r ++ [x]) :=
  ⟨by simp, selectionSort_sorts_all_but_last
    [sampleBid "1" "C", sampleBid "2" "B", sampleBid "3" "A"] (by simp)⟩

/-- Claim C18. `quickSort` is not stable: on the two records with identifiers
"1", "2" and the same title "A", `quickSort(S, 0, len(S) - 1)` returns them in the
order "2", "1". -/
theorem quickSort_not_stable :
    (sampleBid "1" "A").title = (sampleBid "2" "A").title ∧
      (sampleBid "1" "A").bidId ≠ (sampleBid "2" "A").bidId ∧
      quickSort [sampleBid "1" "A", sampleBid "2" "A"] 0
          (([sampleBid "1" "A", sampleBid "2" "A"].length : Int) - 1) =
        some [sampleBid "2" "A", sampleBid "1" "A"] := by
  refine ⟨rfl, by decide, ?_⟩
  have hp := partition_pair_of_not_lt (sampleBid "1" "A") (sampleBid "2" "A") (lt_irrefl _)
  rw [show (([sampleBid "1" "A", sampleBid "2" "A"].length : Int) - 1) = 1 from rfl,
    quickSort_step (by decide) hp, quickSort_base (by decide)]
  simp only [Option.some_bind]
  exact quickSort_base (by decide)

/-- Claim C19, evaluated on the code. With the clock at 5 before the sort and at 9
after it, the sort branch evaluates `ticks - clock() - ticks` to -9, discards it and
prints 5 ticks: not 0, and not the elapsed 4 ticks that the assignment of the load
branch gives on the same readings. -/
theorem sortBranch_reports_nonzero :
    sortBranchTicks 5 9 = (-9, 5) ∧ (sortBranchTicks 5 9).2 ≠ 0 ∧
      loadBranchTicks 5 9 = 4 := by
  decide

end Sorting

end VectorSorting
